/-
Verification development for the MetaSo-MD-Translator core pipeline
(token estimation, batch planning, marker codec, alignment fallback,
batch-progress persistence, rate limiting), shallowly embedded from the
TypeScript source.  Strings are modelled as lists of characters and
JavaScript number arithmetic as exact integer/rational arithmetic.
-/
import Mathlib

namespace MetaSo

/-- A JavaScript string, modelled as a list of characters. -/
abbrev Str := List Char

/-- Characters treated as whitespace by the JavaScript trim method
(ASCII whitespace, NBSP, BOM and the Unicode space separators). -/
def isJsWhitespace (c : Char) : Bool :=
  (9 ≤ c.toNat && c.toNat ≤ 13) || c.toNat = 32 || c.toNat = 0xa0 ||
  c.toNat = 0x1680 || (0x2000 ≤ c.toNat && c.toNat ≤ 0x200a) ||
  c.toNat = 0x2028 || c.toNat = 0x2029 || c.toNat = 0x202f ||
  c.toNat = 0x205f || c.toNat = 0x3000 || c.toNat = 0xfeff

/-- JavaScript String.prototype.trim: drop whitespace from both ends. -/
def jsTrim (s : Str) : Str :=
  ((s.dropWhile isJsWhitespace).reverse.dropWhile isJsWhitespace).reverse

/-- The character class of the regex [一-龥] used by estimateTokens. -/
def isChineseChar (c : Char) : Bool :=
  0x4e00 ≤ c.toNat && c.toNat ≤ 0x9fa5

/-- markdownProcessor.ts, estimateTokens: chineseChars is the number of
regex matches of the CJK class, otherChars is text.length minus that,
and the result is Math.ceil(chineseChars / 2) + Math.ceil(otherChars / 4).
Math.ceil(c / 2) on a natural number c is (c + 1) / 2 in natural
division, and Math.ceil(o / 4) is (o + 3) / 4. -/
def estimateTokens (text : Str) : ℕ :=
  ((text.filter isChineseChar).length + 1) / 2 +
    ((text.length - (text.filter isChineseChar).length) + 3) / 4

/-- ParagraphInfo from background/types: one translatable unit. -/
structure ParagraphInfo where
  text : Str
  itemIndex : ℕ
  paragraphIndex : ℕ
  estimatedTokens : ℤ
  deriving DecidableEq, Repr

/-- CONFIG.TRANSLATION.SAFE_TOKEN_MARGIN from background/constants. -/
def SAFE_TOKEN_MARGIN : ℤ := 0

/-- CONFIG.TRANSLATION.MAX_CONTEXT_TOKENS from background/constants. -/
def MAX_CONTEXT_TOKENS : ℤ := 2048

/-- The loop body of markdownProcessor.ts batchParagraphs, written as a
recursion over the remaining paragraphs.  cur is the current batch being
accumulated and curTok its running token sum; batches are emitted in
order. -/
def batchLoop : List ParagraphInfo → ℤ → List ParagraphInfo → ℤ → List (List ParagraphInfo)
  | [], _, cur, _ => if cur.length > 0 then [cur] else []
  | p :: rest, safeMax, cur, curTok =>
    if p.estimatedTokens > safeMax then
      (if cur.length > 0 then [cur] else []) ++ [p] :: batchLoop rest safeMax [] 0
    else if curTok + p.estimatedTokens > safeMax ∧ cur.length > 0 then
      cur :: batchLoop rest safeMax [p] p.estimatedTokens
    else
      batchLoop rest safeMax (cur ++ [p]) (curTok + p.estimatedTokens)

/-- markdownProcessor.ts batchParagraphs: greedy token-bounded batching. -/
def batchParagraphs (paragraphs : List ParagraphInfo) (maxTokens : ℤ) : List (List ParagraphInfo) :=
  batchLoop paragraphs (maxTokens - SAFE_TOKEN_MARGIN) [] 0

/-- Token sum of a batch. -/
def batchTokens (b : List ParagraphInfo) : ℤ :=
  (b.map (fun p => p.estimatedTokens)).sum

lemma length_zero_eq_nil {α : Type} {l : List α} (h : ¬ l.length > 0) : l = [] := by
  cases l with
  | nil => rfl
  | cons a t => simp at h

lemma batchLoop_join (ps : List ParagraphInfo) (B : ℤ) :
    ∀ cur tok, (batchLoop ps B cur tok).flatten = cur ++ ps := by
  induction ps with
  | nil =>
    intro cur tok
    by_cases h : cur.length > 0
    · simp [batchLoop, h]
    · rw [length_zero_eq_nil h]
      simp [batchLoop]
  | cons p rest ih =>
    intro cur tok
    simp only [batchLoop]
    split_ifs with h1 h2 h3
    · simp [ih]
    · rw [length_zero_eq_nil h2]
      simp [ih]
    · simp [ih]
    · simp [ih]

lemma batchTokens_append (a b : List ParagraphInfo) :
    batchTokens (a ++ b) = batchTokens a + batchTokens b := by
  simp [batchTokens]

lemma batchLoop_mem (ps : List ParagraphInfo) (B : ℤ) :
    ∀ cur tok b, tok = batchTokens cur → (cur ≠ [] → batchTokens cur ≤ B) →
    b ∈ batchLoop ps B cur tok →
    batchTokens b ≤ B ∨ (b.length = 1 ∧ ∀ p ∈ b, p.estimatedTokens > B) := by
  induction ps with
  | nil =>
    intro cur tok b htok hinv hb
    by_cases h : cur.length > 0
    · simp only [batchLoop, if_pos h, List.mem_singleton] at hb
      subst hb
      left
      exact hinv (by simpa using List.length_pos.mp h)
    · simp [batchLoop, h] at hb
  | cons p rest ih =>
    intro cur tok b htok hinv hb
    simp only [batchLoop] at hb
    split_ifs at hb with h1 h2 h3
    · rcases List.mem_append.mp hb with hcur | hb2
      · rw [List.mem_singleton] at hcur
        subst hcur
        left
        exact hinv (by simpa using List.length_pos.mp h2)
      · rcases List.mem_cons.mp hb2 with hsing | hrest
        · subst hsing
          right
          refine ⟨rfl, ?_⟩
          intro q hq
          rw [List.mem_singleton] at hq
          subst hq
          exact h1
        · exact ih [] 0 b (by simp [batchTokens]) (by simp) hrest
    · rcases List.mem_append.mp hb with hcur | hb2
      · simp at hcur
      · rcases List.mem_cons.mp hb2 with hsing | hrest
        · subst hsing
          right
          refine ⟨rfl, ?_⟩
          intro q hq
          rw [List.mem_singleton] at hq
          subst hq
          exact h1
        · exact ih [] 0 b (by simp [batchTokens]) (by simp) hrest
    · rcases List.mem_cons.mp hb with hcur | hrest
      · subst hcur
        left
        exact hinv (by simpa using List.length_pos.mp h3.2)
      · exact ih [p] p.estimatedTokens b (by simp [batchTokens])
          (fun _ => by simp [batchTokens]; omega) hrest
    · refine ih (cur ++ [p]) (tok + p.estimatedTokens) b ?_ ?_ hb
      · simp [batchTokens_append, htok, batchTokens]
      · intro _
        have hsum : batchTokens (cur ++ [p]) = batchTokens cur + p.estimatedTokens := by
          simp [batchTokens_append, batchTokens]
        by_cases hc : cur.length > 0
        · have hng : ¬ tok + p.estimatedTokens > B := fun hgt => h3 ⟨hgt, hc⟩
          omega
        · have hc0 : cur = [] := length_zero_eq_nil hc
          subst hc0
          simp [batchTokens] at htok ⊢
          omega

/-- Claim C5: every batch produced by batchParagraphs either fits the
budget B = maxTokens - SAFE_TOKEN_MARGIN or is a singleton whose lone
paragraph exceeds B, and the batches concatenate to the input list. -/
theorem batchParagraphs_budget_and_partition (ps : List ParagraphInfo) (maxTokens : ℤ) :
    (batchParagraphs ps maxTokens).flatten = ps ∧
    ∀ b ∈ batchParagraphs ps maxTokens,
      batchTokens b ≤ maxTokens - SAFE_TOKEN_MARGIN ∨
      (b.length = 1 ∧ ∀ p ∈ b, p.estimatedTokens > maxTokens - SAFE_TOKEN_MARGIN) := by
  constructor
  · simpa using batchLoop_join ps (maxTokens - SAFE_TOKEN_MARGIN) [] 0
  · intro b hb
    exact batchLoop_mem ps (maxTokens - SAFE_TOKEN_MARGIN) [] 0 b
      (by simp [batchTokens]) (by simp) hb

/-- Example paragraph list used by the C5 witness. -/
def exParagraphs : List ParagraphInfo :=
  [⟨[], 0, 0, 4⟩, ⟨[], 0, 1, 5⟩, ⟨[], 1, 0, 11⟩]

/-- Example oversized singleton batch used by the C5 witness. -/
def exBigBatch : List ParagraphInfo := [⟨[], 1, 0, 11⟩]

/-- Witness for C5 at a concrete input: two small paragraphs and one
oversized paragraph under budget 10. -/
theorem batchParagraphs_budget_and_partition_witness :
    (batchParagraphs exParagraphs 10).flatten = exParagraphs ∧
    (batchTokens exBigBatch ≤ 10 - SAFE_TOKEN_MARGIN ∨
      (exBigBatch.length = 1 ∧
        ∀ p ∈ exBigBatch, p.estimatedTokens > 10 - SAFE_TOKEN_MARGIN)) :=
  ⟨(batchParagraphs_budget_and_partition exParagraphs 10).1,
   (batchParagraphs_budget_and_partition exParagraphs 10).2 exBigBatch (by decide)⟩

lemma ceil_nat_div (a b : ℕ) (hb : 0 < b) : ⌈(a : ℚ) / (b : ℚ)⌉₊ = (a + b - 1) / b := by
  rcases Nat.eq_zero_or_pos a with ha | ha
  · subst ha
    simp [Nat.div_eq_of_lt (by omega : b - 1 < b)]
  · have hb0 : (0 : ℚ) < (b : ℚ) := by exact_mod_cast hb
    obtain ⟨c, rfl⟩ : ∃ c, a = c + 1 := ⟨a - 1, by omega⟩
    have hdm := Nat.div_add_mod c b
    have hmlt := Nat.mod_lt c hb
    have hn : (c + 1 + b - 1) / b = c / b + 1 := by
      rw [show c + 1 + b - 1 = c + b by omega]
      exact Nat.add_div_right c hb
    rw [hn, Nat.ceil_eq_iff (Nat.succ_ne_zero _)]
    constructor
    · rw [lt_div_iff₀ hb0]
      have h1 : c / b * b ≤ c := Nat.div_mul_le_self _ _
      have h1' : c / b * b < c + 1 := Nat.lt_succ_of_le h1
      have hcast : ((c / b : ℕ) : ℚ) * (b : ℚ) < ((c + 1 : ℕ) : ℚ) := by exact_mod_cast h1'
      simpa using hcast
    · rw [div_le_iff₀ hb0]
      have hexp : (c / b + 1) * b = b * (c / b) + b := by ring
      have h2 : c + 1 ≤ (c / b + 1) * b := by
        rw [hexp]
        linarith [hdm, hmlt]
      exact_mod_cast h2

/-- Claim C9: estimateTokens is ceil(c / 2) + ceil(o / 4) where c counts
the CJK characters and o the remaining characters, and it is zero
exactly on the empty string. -/
theorem estimateTokens_formula (s : Str) :
    estimateTokens s =
      ⌈((s.filter isChineseChar).length : ℚ) / 2⌉₊ +
      ⌈((s.length - (s.filter isChineseChar).length : ℕ) : ℚ) / 4⌉₊ ∧
    (estimateTokens s = 0 ↔ s = []) := by
  constructor
  · have h2 := ceil_nat_div (s.filter isChineseChar).length 2 (by norm_num)
    have h4 := ceil_nat_div (s.length - (s.filter isChineseChar).length) 4 (by norm_num)
    rw [show ((2 : ℕ) : ℚ) = (2 : ℚ) by norm_num] at h2
    rw [show ((4 : ℕ) : ℚ) = (4 : ℚ) by norm_num] at h4
    rw [h2, h4]
    have e2 : (s.filter isChineseChar).length + 2 - 1 = (s.filter isChineseChar).length + 1 := by omega
    have e4 : s.length - (s.filter isChineseChar).length + 4 - 1 =
        s.length - (s.filter isChineseChar).length + 3 := by omega
    rw [e2, e4]
    rfl
  · constructor
    · intro h
      by_contra hne
      have hlen : 0 < s.length := List.length_pos.mpr hne
      have hle : (s.filter isChineseChar).length ≤ s.length := List.length_filter_le _ _
      simp only [estimateTokens] at h
      omega
    · intro h
      subst h
      rfl

/-- Witness for C9 is not needed (no hypotheses), but we record the
claim instance on a concrete mixed string. -/
theorem estimateTokens_formula_witness :
    estimateTokens ("ab".toList ++ [Char.ofNat 0x4e2d]) = 2 := by
  decide

/-! JavaScript sparse arrays.  The decoder writes translations with
paragraphs[k] = content where k is an arbitrary ordinal, so the array is
sparse.  We model it as a log of index assignments, newest first; the
array length is one more than the largest assigned index, as in JS. -/

/-- A JavaScript (possibly sparse) array of strings: assignment log,
newest entry first. -/
abbrev JsArr := List (ℕ × Str)

/-- Assignment a[i] = v. -/
def awrite (a : JsArr) (i : ℕ) (v : Str) : JsArr := (i, v) :: a

/-- Read a[i]; none models an unassigned hole (undefined). -/
def aget (a : JsArr) (i : ℕ) : Option Str :=
  (a.find? (fun e => e.1 == i)).map (fun e => e.2)

/-- JS array length: one more than the largest assigned index. -/
def alen (a : JsArr) : ℕ := a.foldr (fun e m => max (e.1 + 1) m) 0

/-- A dense array, entry j + i holding xs[i]. -/
def ofListFrom (j : ℕ) : List Str → JsArr
  | [] => []
  | x :: xs => (j, x) :: ofListFrom (j + 1) xs

/-- A dense JS array holding exactly the given list. -/
def ofList (xs : List Str) : JsArr := ofListFrom 0 xs

lemma aget_awrite_self (a : JsArr) (i : ℕ) (v : Str) : aget (awrite a i v) i = some v := by
  simp [aget, awrite, List.find?]

lemma aget_awrite_ne (a : JsArr) {i j : ℕ} (v : Str) (h : i ≠ j) :
    aget (awrite a i v) j = aget a j := by
  simp only [aget, awrite]
  rw [List.find?_cons_of_neg]
  simp [h]

lemma alen_awrite (a : JsArr) (i : ℕ) (v : Str) : alen (awrite a i v) = max (i + 1) (alen a) := rfl

lemma alen_cons (e : ℕ × Str) (t : JsArr) : alen (e :: t) = max (e.1 + 1) (alen t) := rfl

lemma lt_alen_of_aget {a : JsArr} {i : ℕ} {v : Str} : aget a i = some v → i < alen a := by
  induction a with
  | nil => intro h; simp [aget] at h
  | cons e t ih =>
    intro h
    rw [alen_cons]
    simp only [aget, List.find?] at h
    rcases he : (e.1 == i) with _ | _
    · rw [he] at h
      have hi : i < alen t := ih (by simpa [aget] using h)
      omega
    · have heq : e.1 = i := by simpa using he
      omega

lemma alen_ofListFrom (xs : List Str) : ∀ j, alen (ofListFrom j xs) = if xs.isEmpty then 0 else j + xs.length := by
  induction xs with
  | nil => intro j; simp [ofListFrom, alen]
  | cons x xs ih =>
    intro j
    simp only [ofListFrom, List.isEmpty_cons]
    show max (j + 1) (alen (ofListFrom (j + 1) xs)) = j + (x :: xs).length
    rw [ih (j + 1)]
    cases xs <;> simp <;> omega

lemma alen_ofList (xs : List Str) : alen (ofList xs) = xs.length := by
  rw [ofList, alen_ofListFrom]
  cases xs <;> simp

/-! The marker codec (markerUtils.ts).  The wire sentinel for ordinal n
is the text between double square brackets, two underscores,
META_SO_PARA_, the decimal digits of n, two underscores and closing
double brackets.  matchMarkerAt models one attempted regex match of the
sentinel pattern at the head of the string; the scanners below model
matchAll (left to right, non-overlapping) and replace. -/

/-- Literal opening part of the marker pattern. -/
def markerPre : Str := "[[__META_SO_PARA_".toList

/-- Literal closing part of the marker pattern. -/
def markerSuf : Str := "__]]".toList

/-- Consume an exact literal from the head of a string. -/
def dropLit : Str → Str → Option Str
  | [], s => some s
  | _ :: _, [] => none
  | l :: ls, c :: cs => if c = l then dropLit ls cs else none

/-- Split off the maximal run of leading decimal digits. -/
def takeDigits : Str → Str × Str
  | [] => ([], [])
  | c :: cs =>
    if c.isDigit then
      ((takeDigits cs).1.cons c, (takeDigits cs).2)
    else ([], c :: cs)

/-- parseInt on a string of decimal digits. -/
def digitsToNat (ds : Str) : ℕ := ds.foldl (fun a c => a * 10 + (c.toNat - 48)) 0

/-- Attempt to match the marker pattern at the head of s; on success
return the parsed ordinal and the remainder of the string.  The regex
digit group is greedy, and since the closing literal starts with an
underscore, greedy matching never needs backtracking. -/
def matchMarkerAt (s : Str) : Option (ℕ × Str) :=
  match dropLit markerPre s with
  | none => none
  | some s1 =>
    if (takeDigits s1).1 = [] then none
    else
      match dropLit markerSuf (takeDigits s1).2 with
      | none => none
      | some s3 => some (digitsToNat (takeDigits s1).1, s3)

/-- The decimal digit character of d. -/
def digitChar (d : ℕ) : Char := Char.ofNat (48 + d)

/-- Fuelled decimal printer (the fuel makes the recursion structural). -/
def natDigitsF : ℕ → ℕ → Str
  | 0, _ => []
  | f + 1, n => if n < 10 then [digitChar n] else natDigitsF f (n / 10) ++ [digitChar (n % 10)]

/-- Decimal digits of n, as produced by JS template interpolation. -/
def natDigits (n : ℕ) : Str := natDigitsF (n + 1) n

/-- The complete marker sentinel for ordinal n. -/
def markerStr (n : ℕ) : Str := markerPre ++ natDigits n ++ markerSuf

/-- Fuelled scanner modelling matchAll with the marker pattern followed
by slicing between consecutive matches: returns the list of
(text before this match since the previous match, parsed ordinal) pairs
in order, together with the text after the last match.  The fuel is
always instantiated with the length of the string, which suffices since
every step consumes at least one character. -/
def splitGo : ℕ → Str → Str → List (Str × ℕ) × Str
  | 0, s, acc => ([], acc.reverse ++ s)
  | f + 1, s, acc =>
    match matchMarkerAt s with
    | some (k, rest) =>
      ((acc.reverse, k) :: (splitGo f rest []).1, (splitGo f rest []).2)
    | none =>
      match s with
      | [] => ([], acc.reverse)
      | c :: t => splitGo f t (c :: acc)

/-- All marker matches of a string with the surrounding slices. -/
def splitByMarkers (s : Str) : List (Str × ℕ) × Str := splitGo s.length s []

/-- Fuelled scanner modelling replace of every marker match by the empty
string. -/
def stripGo : ℕ → Str → Str
  | 0, s => s
  | f + 1, s =>
    match matchMarkerAt s with
    | some (_, rest) => stripGo f rest
    | none =>
      match s with
      | [] => []
      | c :: t => c :: stripGo f t

/-- content.replace(markerPattern, empty).  Removes every match of the
marker pattern. -/
def stripMarkers (s : Str) : Str := stripGo s.length s

/-- Whether the marker pattern matches anywhere in the string. -/
def containsMarker : Str → Bool
  | [] => false
  | c :: t => (matchMarkerAt (c :: t)).isSome || containsMarker t

/-- The cleanup applied to every recovered slice in
extractTranslatedParagraphs: trim, defensively strip stray markers,
trim again. -/
def cleanSegment (seg : Str) : Str := jsTrim (stripMarkers (jsTrim seg))

/-- MarkerExtractionResult from types: recovered sparse paragraph array
plus marker bookkeeping. -/
structure MarkerExtractionResult where
  paragraphs : JsArr
  missingMarkers : List ℕ
  duplicateMarkers : List ℕ
  foundMarkers : List ℕ
  deriving DecidableEq

/-- Set.add on the found-ordinal set (insertion order retained). -/
def insertFound (l : List ℕ) (k : ℕ) : List ℕ := if k ∈ l then l else l ++ [k]

/-- Intermediate state of the extraction loop. -/
structure ExtractState where
  paragraphs : JsArr
  dup : List ℕ
  found : List ℕ
  deriving DecidableEq

/-- One iteration of the match loop of extractTranslatedParagraphs:
flag a duplicate ordinal, record the ordinal as found, store the cleaned
slice at the ordinal (unconditionally, so a later occurrence overwrites
an earlier one). -/
def procStep (st : ExtractState) (pr : Str × ℕ) : ExtractState :=
  { paragraphs := awrite st.paragraphs pr.2 (cleanSegment pr.1),
    dup := if pr.2 ∈ st.found then st.dup ++ [pr.2] else st.dup,
    found := insertFound st.found pr.2 }

/-- The match loop of extractTranslatedParagraphs over all matches. -/
def procPairs (pairs : List (Str × ℕ)) (st : ExtractState) : ExtractState :=
  pairs.foldl procStep st

/-- The handling of the content after the last marker in
extractTranslatedParagraphs: when at least one marker matched and the
ordinal after the last matched ordinal is still below expectedCount,
the cleaned trailing text is stored as that next ordinal's translation
and the ordinal is recorded as found. -/
def extractTailStep (expectedCount : ℕ) (pairs : List (Str × ℕ)) (tail : Str)
    (st : ExtractState) : ExtractState :=
  match pairs.getLast? with
  | none => st
  | some last =>
    if last.2 + 1 < expectedCount then
      { paragraphs := awrite st.paragraphs (last.2 + 1) (cleanSegment tail),
        dup := st.dup,
        found := insertFound st.found (last.2 + 1) }
    else st

/-- The final missing-marker scan of extractTranslatedParagraphs. -/
def extractFinish (expectedCount : ℕ) (st2 : ExtractState) : MarkerExtractionResult :=
  { paragraphs := st2.paragraphs,
    missingMarkers := (List.range expectedCount).filter (fun i => !(st2.found.contains i)),
    duplicateMarkers := st2.dup,
    foundMarkers := st2.found }

/-- markerUtils.ts extractTranslatedParagraphs: scan all marker matches,
store the slice before each marker at its parsed ordinal, handle the
text after the last marker as the translation of ordinal last + 1 when
that is still below expectedCount, then list the ordinals below
expectedCount that were never found. -/
def extractTranslatedParagraphs (translatedContent : Str) (expectedCount : ℕ) :
    MarkerExtractionResult :=
  extractFinish expectedCount
    (extractTailStep expectedCount (splitByMarkers translatedContent).1
      (splitByMarkers translatedContent).2
      (procPairs (splitByMarkers translatedContent).1 ⟨[], [], []⟩))

/-! The alignment fallback resolver (alignmentFallback.ts). -/

/-- FallbackLevel from types. -/
inductive FallbackLevel where
  | perfect
  | minorIssues
  | moderateIssues
  | severeIssues
  | completeFailure
  deriving DecidableEq, Repr

/-- FallbackResult from types. -/
structure FallbackResult where
  level : FallbackLevel
  paragraphs : JsArr
  missingCount : ℕ
  totalCount : ℕ
  appliedStrategy : Str
  deriving DecidableEq

/-- alignmentFallback.ts calculateSimilarity: zero when either text is
falsy, else the ratio of the shorter to the longer length. -/
def calculateSimilarity (text1 text2 : Str) : ℚ :=
  if text1 = [] ∨ text2 = [] then 0
  else (min text1.length text2.length : ℚ) / (max text1.length text2.length : ℚ)

/-- JS String.prototype.split on a single-character separator. -/
def jsSplit (sep : Char) : Str → List Str
  | [] => [[]]
  | c :: t =>
    match jsSplit sep t with
    | [] => [[]]
    | h :: hs => if c = sep then [] :: h :: hs else (c :: h) :: hs

/-- translatedContent.split(newline).map(trim).filter(truthy), shared by
the moderate and severe strategies. -/
def nonEmptyLines (text : Str) : List Str :=
  ((jsSplit '\n' text).map jsTrim).filter (fun s => !s.isEmpty)

/-- JS expression x or-else d on an optional string (undefined and the
empty string are both falsy). -/
def jsOr (o : Option Str) (d : Str) : Str :=
  match o with
  | some s => if s = [] then d else s
  | none => d

/-- alignmentFallback.ts fillMissingWithOriginal. -/
def fillMissingWithOriginal (paragraphs : JsArr) (missingMarkers : List ℕ)
    (originalBatch : List ParagraphInfo) : JsArr :=
  missingMarkers.foldl (fun res index =>
    match originalBatch[index]? with
    | some p => awrite res index p.text
    | none => res) paragraphs

/-- The inner best-line search of applyHeuristicMatching: fold over the
candidate lines keeping the best (match, score), starting from the empty
match with score -1.  The unused best line index of the source only
feeds a log line and is not tracked. -/
def findBestLine (originalText : Str) (lines : List Str) : Str × ℚ :=
  lines.foldl (fun best line =>
    if calculateSimilarity originalText line > best.2
    then (line, calculateSimilarity originalText line) else best) ([], -1)

/-- alignmentFallback.ts applyHeuristicMatching: for each missing
ordinal with a truthy source text, use the best-scoring translated line
if its score exceeds one half, else the source text. -/
def applyHeuristicMatching (paragraphs : JsArr) (missingMarkers : List ℕ)
    (originalBatch : List ParagraphInfo) (translatedContent : Str) : JsArr :=
  missingMarkers.foldl (fun res markerIndex =>
    match originalBatch[markerIndex]? with
    | none => res
    | some p =>
      if p.text = [] then res
      else
        if (findBestLine p.text (nonEmptyLines translatedContent)).2 > 1 / 2 then
          awrite res markerIndex (findBestLine p.text (nonEmptyLines translatedContent)).1
        else awrite res markerIndex p.text) paragraphs

/-- alignmentFallback.ts fallbackToLineBased: positionally zip the
non-empty translated lines with the batch, falling back to source text
past the end. -/
def fallbackToLineBased (originalBatch : List ParagraphInfo) (translatedContent : Str) :
    List Str :=
  originalBatch.mapIdx (fun index para => jsOr (nonEmptyLines translatedContent)[index]? para.text)

/-- The missing share: the JS number missingCount / totalCount, taken as
full loss when totalCount is zero.  JS number arithmetic is modelled
exactly over the rationals. -/
def missingShare (missingCount totalCount : ℕ) : ℚ :=
  if totalCount > 0 then (missingCount : ℚ) / (totalCount : ℚ) else 1

/-- The escalation ladder of applyFallbackStrategy, first match wins. -/
def fallbackLevel (missingCount dupCount totalCount : ℕ) : FallbackLevel :=
  if missingCount = 0 ∧ dupCount = 0 then .perfect
  else if missingShare missingCount totalCount < 1 / 10 then .minorIssues
  else if missingShare missingCount totalCount < 3 / 10 then .moderateIssues
  else if missingShare missingCount totalCount < 1 then .severeIssues
  else .completeFailure

/-- alignmentFallback.ts applyFallbackStrategy. -/
def applyFallbackStrategy (extractionResult : MarkerExtractionResult)
    (originalBatch : List ParagraphInfo) (translatedContent : Str) : FallbackResult :=
  match fallbackLevel extractionResult.missingMarkers.length
      extractionResult.duplicateMarkers.length originalBatch.length with
  | .perfect =>
    { level := .perfect,
      paragraphs := extractionResult.paragraphs,
      missingCount := extractionResult.missingMarkers.length,
      totalCount := originalBatch.length,
      appliedStrategy := "All markers found - using extracted paragraphs directly".toList }
  | .minorIssues =>
    { level := .minorIssues,
      paragraphs := fillMissingWithOriginal extractionResult.paragraphs
        extractionResult.missingMarkers originalBatch,
      missingCount := extractionResult.missingMarkers.length,
      totalCount := originalBatch.length,
      appliedStrategy := "Minor issues: filling ".toList ++
        natDigits extractionResult.missingMarkers.length ++
        " missing paragraphs with original text".toList }
  | .moderateIssues =>
    { level := .moderateIssues,
      paragraphs := applyHeuristicMatching extractionResult.paragraphs
        extractionResult.missingMarkers originalBatch translatedContent,
      missingCount := extractionResult.missingMarkers.length,
      totalCount := originalBatch.length,
      appliedStrategy := "Moderate issues: applying heuristic matching for ".toList ++
        natDigits extractionResult.missingMarkers.length ++
        " missing paragraphs".toList }
  | .severeIssues =>
    { level := .severeIssues,
      paragraphs := ofList (fallbackToLineBased originalBatch translatedContent),
      missingCount := extractionResult.missingMarkers.length,
      totalCount := originalBatch.length,
      appliedStrategy := "Severe issues: falling back to legacy line-based matching".toList }
  | .completeFailure =>
    { level := .completeFailure,
      paragraphs := ofList (originalBatch.map (fun p => p.text)),
      missingCount := extractionResult.missingMarkers.length,
      totalCount := originalBatch.length,
      appliedStrategy := "Complete failure: preserving all original text".toList }

lemma applyFallback_level (er : MarkerExtractionResult) (b : List ParagraphInfo) (t : Str) :
    (applyFallbackStrategy er b t).level =
      fallbackLevel er.missingMarkers.length er.duplicateMarkers.length b.length := by
  cases h : fallbackLevel er.missingMarkers.length er.duplicateMarkers.length b.length <;>
    simp [applyFallbackStrategy, h]

lemma fallbackLevel_perfect_iff (mc dc tc : ℕ) :
    fallbackLevel mc dc tc = .perfect ↔ (mc = 0 ∧ dc = 0) := by
  constructor
  · intro h
    unfold fallbackLevel at h
    split_ifs at h with h1 h2 h3 h4 <;> first | exact h1 | simp at h
  · intro h1
    unfold fallbackLevel
    rw [if_pos h1]

lemma fallbackLevel_minor_iff (mc dc tc : ℕ) :
    fallbackLevel mc dc tc = .minorIssues ↔
      (¬(mc = 0 ∧ dc = 0) ∧ missingShare mc tc < 1 / 10) := by
  constructor
  · intro h
    unfold fallbackLevel at h
    split_ifs at h with h1 h2 h3 h4 <;> first | exact ⟨h1, h2⟩ | simp at h
  · rintro ⟨h1, h2⟩
    unfold fallbackLevel
    rw [if_neg h1, if_pos h2]

lemma fallbackLevel_moderate_iff (mc dc tc : ℕ) :
    fallbackLevel mc dc tc = .moderateIssues ↔
      (¬(mc = 0 ∧ dc = 0) ∧ ¬missingShare mc tc < 1 / 10 ∧
        missingShare mc tc < 3 / 10) := by
  constructor
  · intro h
    unfold fallbackLevel at h
    split_ifs at h with h1 h2 h3 h4 <;> first | exact ⟨h1, h2, h3⟩ | simp at h
  · rintro ⟨h1, h2, h3⟩
    unfold fallbackLevel
    rw [if_neg h1, if_neg h2, if_pos h3]

lemma fallbackLevel_severe_iff (mc dc tc : ℕ) :
    fallbackLevel mc dc tc = .severeIssues ↔
      (¬(mc = 0 ∧ dc = 0) ∧ ¬missingShare mc tc < 1 / 10 ∧
        ¬missingShare mc tc < 3 / 10 ∧ missingShare mc tc < 1) := by
  constructor
  · intro h
    unfold fallbackLevel at h
    split_ifs at h with h1 h2 h3 h4 <;> first | exact ⟨h1, h2, h3, h4⟩ | simp at h
  · rintro ⟨h1, h2, h3, h4⟩
    unfold fallbackLevel
    rw [if_neg h1, if_neg h2, if_neg h3, if_pos h4]

lemma fallbackLevel_failure_iff (mc dc tc : ℕ) :
    fallbackLevel mc dc tc = .completeFailure ↔
      (¬(mc = 0 ∧ dc = 0) ∧ ¬missingShare mc tc < 1 / 10 ∧
        ¬missingShare mc tc < 3 / 10 ∧ ¬missingShare mc tc < 1) := by
  constructor
  · intro h
    unfold fallbackLevel at h
    split_ifs at h with h1 h2 h3 h4 <;> first | exact ⟨h1, h2, h3, h4⟩ | simp at h
  · rintro ⟨h1, h2, h3, h4⟩
    unfold fallbackLevel
    rw [if_neg h1, if_neg h2, if_neg h3, if_neg h4]

/-- Claim C6: the fallback level is chosen by the escalation ladder,
first match wins: Perfect exactly when nothing is missing or duplicated,
otherwise by the missing share (missing count over total count, full
loss when the total count is zero) against the thresholds one tenth,
three tenths and one. -/
theorem fallback_level_ladder (er : MarkerExtractionResult)
    (originalBatch : List ParagraphInfo) (translatedContent : Str) :
    ((applyFallbackStrategy er originalBatch translatedContent).level = FallbackLevel.perfect ↔
      (er.missingMarkers.length = 0 ∧ er.duplicateMarkers.length = 0)) ∧
    ((applyFallbackStrategy er originalBatch translatedContent).level = FallbackLevel.minorIssues ↔
      (¬(er.missingMarkers.length = 0 ∧ er.duplicateMarkers.length = 0) ∧
        missingShare er.missingMarkers.length originalBatch.length < 1 / 10)) ∧
    ((applyFallbackStrategy er originalBatch translatedContent).level = FallbackLevel.moderateIssues ↔
      (¬(er.missingMarkers.length = 0 ∧ er.duplicateMarkers.length = 0) ∧
        ¬missingShare er.missingMarkers.length originalBatch.length < 1 / 10 ∧
        missingShare er.missingMarkers.length originalBatch.length < 3 / 10)) ∧
    ((applyFallbackStrategy er originalBatch translatedContent).level = FallbackLevel.severeIssues ↔
      (¬(er.missingMarkers.length = 0 ∧ er.duplicateMarkers.length = 0) ∧
        ¬missingShare er.missingMarkers.length originalBatch.length < 1 / 10 ∧
        ¬missingShare er.missingMarkers.length originalBatch.length < 3 / 10 ∧
        missingShare er.missingMarkers.length originalBatch.length < 1)) ∧
    ((applyFallbackStrategy er originalBatch translatedContent).level = FallbackLevel.completeFailure ↔
      (¬(er.missingMarkers.length = 0 ∧ er.duplicateMarkers.length = 0) ∧
        ¬missingShare er.missingMarkers.length originalBatch.length < 1 / 10 ∧
        ¬missingShare er.missingMarkers.length originalBatch.length < 3 / 10 ∧
        ¬missingShare er.missingMarkers.length originalBatch.length < 1)) := by
  rw [applyFallback_level er originalBatch translatedContent]
  exact ⟨fallbackLevel_perfect_iff _ _ _, fallbackLevel_minor_iff _ _ _,
    fallbackLevel_moderate_iff _ _ _, fallbackLevel_severe_iff _ _ _,
    fallbackLevel_failure_iff _ _ _⟩

/-- Text of the C1 counterexample: the model echoed marker 0 and a stray
marker 5, so the decoder records entries at ordinals 0 and 5, no ordinal
below expectedCount = 1 is missing and none is duplicated. -/
def ceText : Str := "X[[__META_SO_PARA_0__]]Y[[__META_SO_PARA_5__]]".toList

/-- Single-paragraph batch of the C1 counterexample. -/
def ceBatch : List ParagraphInfo := [⟨"orig".toList, 0, 0, 2⟩]

/-- Counterexample to claim C1 as stated: for this reachable extraction
result (produced by extractTranslatedParagraphs itself with
expectedCount equal to the batch size) the Perfect branch returns the
sparse extraction array unchanged, and its length is 6, not
totalCount = 1, because a recovered entry sits at ordinal 5 above
totalCount. -/
theorem fallback_totality_counterexample :
    ceBatch.length = 1 ∧
    alen (applyFallbackStrategy (extractTranslatedParagraphs ceText 1) ceBatch ceText).paragraphs
      = 6 ∧ (6 : ℕ) ≠ 1 := by
  refine ⟨rfl, ?_, by decide⟩
  decide

lemma getElem?_some_lt {α : Type} {l : List α} {i : ℕ} {x : α} (h : l[i]? = some x) :
    i < l.length := by
  by_contra hge
  push_neg at hge
  rw [List.getElem?_eq_none hge] at h
  cases h

lemma fill_alen_le (batch : List ParagraphInfo) (missing : List ℕ) :
    ∀ paragraphs, alen (fillMissingWithOriginal paragraphs missing batch) ≤
      max (alen paragraphs) batch.length := by
  induction missing with
  | nil => intro paragraphs; simp [fillMissingWithOriginal]
  | cons j rest ih =>
    intro paragraphs
    simp only [fillMissingWithOriginal, List.foldl_cons]
    cases hj : batch[j]? with
    | none =>
      simpa [fillMissingWithOriginal, hj] using ih paragraphs
    | some p =>
      have hlt : j < batch.length := getElem?_some_lt hj
      have := ih (awrite paragraphs j p.text)
      simp only [fillMissingWithOriginal, hj] at this ⊢
      rw [alen_awrite] at this
      omega

lemma fill_alen_mono (batch : List ParagraphInfo) (missing : List ℕ) :
    ∀ paragraphs, alen paragraphs ≤ alen (fillMissingWithOriginal paragraphs missing batch) := by
  induction missing with
  | nil => intro paragraphs; simp [fillMissingWithOriginal]
  | cons j rest ih =>
    intro paragraphs
    simp only [fillMissingWithOriginal, List.foldl_cons]
    cases hj : batch[j]? with
    | none => simpa [fillMissingWithOriginal, hj] using ih paragraphs
    | some p =>
      have := ih (awrite paragraphs j p.text)
      simp only [fillMissingWithOriginal, hj] at this ⊢
      rw [alen_awrite] at this
      omega

lemma fill_covers (batch : List ParagraphInfo) (missing : List ℕ) {i : ℕ}
    (hi : i ∈ missing) (hlt : i < batch.length) :
    ∀ paragraphs, i < alen (fillMissingWithOriginal paragraphs missing batch) := by
  induction missing with
  | nil => cases hi
  | cons j rest ih =>
    intro paragraphs
    simp only [fillMissingWithOriginal, List.foldl_cons]
    rcases List.mem_cons.mp hi with rfl | hmem
    · rw [List.getElem?_eq_getElem hlt]
      dsimp only
      have hmono := fill_alen_mono batch rest (awrite paragraphs i (batch[i]).text)
      simp only [fillMissingWithOriginal] at hmono
      rw [alen_awrite] at hmono
      omega
    · cases hj : batch[j]? with
      | none => exact ih hmem _
      | some p => exact ih hmem _

lemma heur_alen_le (batch : List ParagraphInfo) (missing : List ℕ) (text : Str) :
    ∀ paragraphs, alen (applyHeuristicMatching paragraphs missing batch text) ≤
      max (alen paragraphs) batch.length := by
  induction missing with
  | nil => intro paragraphs; simp [applyHeuristicMatching]
  | cons j rest ih =>
    intro paragraphs
    simp only [applyHeuristicMatching, List.foldl_cons]
    cases hj : batch[j]? with
    | none => simpa [applyHeuristicMatching, hj] using ih paragraphs
    | some p =>
      have hlt : j < batch.length := getElem?_some_lt hj
      by_cases hp : p.text = []
      · simpa [applyHeuristicMatching, hj, hp] using ih paragraphs
      · by_cases hs : (findBestLine p.text (nonEmptyLines text)).2 > 1 / 2
        · have := ih (awrite paragraphs j (findBestLine p.text (nonEmptyLines text)).1)
          simp only [applyHeuristicMatching, hj, hp, hs, if_true, if_false] at this ⊢
          rw [alen_awrite] at this
          omega
        · have := ih (awrite paragraphs j p.text)
          simp only [applyHeuristicMatching, hj, hp, hs, if_true, if_false] at this ⊢
          rw [alen_awrite] at this
          omega

lemma heur_alen_mono (batch : List ParagraphInfo) (missing : List ℕ) (text : Str) :
    ∀ paragraphs, alen paragraphs ≤ alen (applyHeuristicMatching paragraphs missing batch text) := by
  induction missing with
  | nil => intro paragraphs; simp [applyHeuristicMatching]
  | cons j rest ih =>
    intro paragraphs
    simp only [applyHeuristicMatching, List.foldl_cons]
    cases hj : batch[j]? with
    | none => simpa [applyHeuristicMatching, hj] using ih paragraphs
    | some p =>
      by_cases hp : p.text = []
      · simpa [applyHeuristicMatching, hj, hp] using ih paragraphs
      · by_cases hs : (findBestLine p.text (nonEmptyLines text)).2 > 1 / 2
        · have := ih (awrite paragraphs j (findBestLine p.text (nonEmptyLines text)).1)
          simp only [applyHeuristicMatching, hj, hp, hs, if_true, if_false] at this ⊢
          rw [alen_awrite] at this
          omega
        · have := ih (awrite paragraphs j p.text)
          simp only [applyHeuristicMatching, hj, hp, hs, if_true, if_false] at this ⊢
          rw [alen_awrite] at this
          omega

lemma heur_covers (batch : List ParagraphInfo) (missing : List ℕ) (text : Str) {i : ℕ}
    (hi : i ∈ missing) (hlt : i < batch.length) (htext : (batch[i]).text ≠ []) :
    ∀ paragraphs, i < alen (applyHeuristicMatching paragraphs missing batch text) := by
  induction missing with
  | nil => cases hi
  | cons j rest ih =>
    intro paragraphs
    simp only [applyHeuristicMatching, List.foldl_cons]
    rcases List.mem_cons.mp hi with rfl | hmem
    · rw [List.getElem?_eq_getElem hlt]
      simp only [if_neg htext]
      by_cases hs : (findBestLine (batch[i]).text (nonEmptyLines text)).2 > 1 / 2
      · rw [if_pos hs]
        have hmono := heur_alen_mono batch rest text
          (awrite paragraphs i (findBestLine (batch[i]).text (nonEmptyLines text)).1)
        simp only [applyHeuristicMatching] at hmono
        rw [alen_awrite] at hmono
        omega
      · rw [if_neg hs]
        have hmono := heur_alen_mono batch rest text (awrite paragraphs i (batch[i]).text)
        simp only [applyHeuristicMatching] at hmono
        rw [alen_awrite] at hmono
        omega
    · cases hj : batch[j]? with
      | none => exact ih hmem _
      | some p =>
        by_cases hp : p.text = []
        · simp only [if_pos hp]
          exact ih hmem _
        · simp only [if_neg hp]
          by_cases hs : (findBestLine p.text (nonEmptyLines text)).2 > 1 / 2
          · rw [if_pos hs]; exact ih hmem _
          · rw [if_neg hs]; exact ih hmem _

lemma missingShare_pos_of_lt_one {mc tc : ℕ} (h : missingShare mc tc < 1) : 0 < tc := by
  by_contra h0
  push_neg at h0
  interval_cases tc
  simp [missingShare] at h

/-- Claim C1, amended: the fallback paragraph array has length exactly
totalCount provided the extraction result only holds entries at ordinals
below totalCount, every non-missing ordinal below totalCount has a
recovered entry, and every source paragraph text is non-empty — which is
exactly the shape of results the decoder produces on marker ordinals
below totalCount.  Without the first proviso the Perfect, Minor and
Moderate branches can return a longer array (see the counterexample). -/
theorem fallback_totality_amended (er : MarkerExtractionResult)
    (originalBatch : List ParagraphInfo) (translatedContent : Str)
    (hlen : alen er.paragraphs ≤ originalBatch.length)
    (hfound : ∀ i < originalBatch.length,
      i ∉ er.missingMarkers → (aget er.paragraphs i).isSome = true)
    (htext : ∀ p ∈ originalBatch, p.text ≠ []) :
    alen (applyFallbackStrategy er originalBatch translatedContent).paragraphs =
      originalBatch.length := by
  cases hL : fallbackLevel er.missingMarkers.length er.duplicateMarkers.length
      originalBatch.length with
  | perfect =>
    have hmc := ((fallbackLevel_perfect_iff _ _ _).mp hL).1
    have hmiss : er.missingMarkers = [] := List.length_eq_zero.mp hmc
    simp only [applyFallbackStrategy, hL]
    refine le_antisymm hlen ?_
    rcases Nat.eq_zero_or_pos originalBatch.length with h0 | hpos
    · omega
    · have hsome := hfound (originalBatch.length - 1) (by omega) (by simp [hmiss])
      rcases Option.isSome_iff_exists.mp hsome with ⟨v, hv⟩
      have := lt_alen_of_aget hv
      omega
  | minorIssues =>
    obtain ⟨-, hshare⟩ := (fallbackLevel_minor_iff _ _ _).mp hL
    have hpos : 0 < originalBatch.length :=
      missingShare_pos_of_lt_one (lt_trans hshare (by norm_num))
    simp only [applyFallbackStrategy, hL]
    refine le_antisymm ?_ ?_
    · have := fill_alen_le originalBatch er.missingMarkers er.paragraphs
      omega
    · by_cases hm : (originalBatch.length - 1) ∈ er.missingMarkers
      · have := fill_covers originalBatch er.missingMarkers hm (by omega) er.paragraphs
        omega
      · have hsome := hfound (originalBatch.length - 1) (by omega) hm
        rcases Option.isSome_iff_exists.mp hsome with ⟨v, hv⟩
        have h1 := lt_alen_of_aget hv
        have h2 := fill_alen_mono originalBatch er.missingMarkers er.paragraphs
        omega
  | moderateIssues =>
    obtain ⟨-, -, hshare⟩ := (fallbackLevel_moderate_iff _ _ _).mp hL
    have hpos : 0 < originalBatch.length :=
      missingShare_pos_of_lt_one (lt_trans hshare (by norm_num))
    simp only [applyFallbackStrategy, hL]
    refine le_antisymm ?_ ?_
    · have := heur_alen_le originalBatch er.missingMarkers translatedContent er.paragraphs
      omega
    · by_cases hm : (originalBatch.length - 1) ∈ er.missingMarkers
      · have hlt : originalBatch.length - 1 < originalBatch.length := by omega
        have := heur_covers originalBatch er.missingMarkers translatedContent hm hlt
          (htext _ (List.getElem_mem hlt)) er.paragraphs
        omega
      · have hsome := hfound (originalBatch.length - 1) (by omega) hm
        rcases Option.isSome_iff_exists.mp hsome with ⟨v, hv⟩
        have h1 := lt_alen_of_aget hv
        have h2 := heur_alen_mono originalBatch er.missingMarkers translatedContent er.paragraphs
        omega
  | severeIssues =>
    simp only [applyFallbackStrategy, hL]
    rw [alen_ofList]
    simp [fallbackToLineBased]
  | completeFailure =>
    simp only [applyFallbackStrategy, hL]
    rw [alen_ofList]
    simp

/-- Extraction result used by the C1 witness: ordinal 0 recovered,
ordinal 1 missing, out of two paragraphs (severe level). -/
def exFallbackEr : MarkerExtractionResult :=
  ⟨[(0, "a".toList)], [1], [], [0]⟩

/-- Batch used by the C1 witness. -/
def exFallbackBatch : List ParagraphInfo :=
  [⟨"x".toList, 0, 0, 1⟩, ⟨"y".toList, 0, 1, 1⟩]

/-- Witness for the amended C1 at a concrete input. -/
theorem fallback_totality_amended_witness :
    alen (applyFallbackStrategy exFallbackEr exFallbackBatch []).paragraphs =
      exFallbackBatch.length :=
  fallback_totality_amended exFallbackEr exFallbackBatch []
    (by decide) (by decide) (by decide)

lemma mem_insertFound_self (l : List ℕ) (k : ℕ) : k ∈ insertFound l k := by
  unfold insertFound
  split_ifs with h
  · exact h
  · simp

lemma mem_insertFound_of_mem {l : List ℕ} {k : ℕ} (j : ℕ) (h : k ∈ l) : k ∈ insertFound l j := by
  unfold insertFound
  split_ifs <;> simp [h]

lemma procPairs_dup_mono (pairs : List (Str × ℕ)) :
    ∀ st, ∀ k ∈ st.dup, k ∈ (procPairs pairs st).dup := by
  induction pairs with
  | nil => intro st k hk; exact hk
  | cons pr rest ih =>
    intro st k hk
    refine ih (procStep st pr) k ?_
    unfold procStep
    split_ifs <;> simp [hk]

lemma procPairs_found_mono (pairs : List (Str × ℕ)) :
    ∀ st, ∀ k ∈ st.found, k ∈ (procPairs pairs st).found := by
  induction pairs with
  | nil => intro st k hk; exact hk
  | cons pr rest ih =>
    intro st k hk
    exact ih (procStep st pr) k (mem_insertFound_of_mem _ hk)

lemma procPairs_dup_of_found (pairs : List (Str × ℕ)) {k : ℕ} :
    ∀ st, 1 ≤ (pairs.filter (fun pr => pr.2 == k)).length → k ∈ st.found →
      k ∈ (procPairs pairs st).dup := by
  induction pairs with
  | nil => intro st h hf; simp at h
  | cons pr rest ih =>
    intro st h hf
    rcases hk : (pr.2 == k) with _ | _
    · rw [List.filter_cons_of_neg (by simp [hk])] at h
      exact ih (procStep st pr) h (mem_insertFound_of_mem _ hf)
    · have hk2 : pr.2 = k := by simpa using hk
      have hmem : k ∈ (procStep st pr).dup := by
        unfold procStep
        rw [hk2, if_pos hf]
        simp
      exact procPairs_dup_mono rest (procStep st pr) k hmem

lemma procPairs_dup_of_two (pairs : List (Str × ℕ)) {k : ℕ} :
    ∀ st, 2 ≤ (pairs.filter (fun pr => pr.2 == k)).length →
      k ∈ (procPairs pairs st).dup := by
  induction pairs with
  | nil => intro st h; simp at h
  | cons pr rest ih =>
    intro st h
    rcases hk : (pr.2 == k) with _ | _
    · rw [List.filter_cons_of_neg (by simp [hk])] at h
      exact ih (procStep st pr) h
    · have hk2 : pr.2 = k := by simpa using hk
      rw [List.filter_cons_of_pos (by simp [hk])] at h
      simp only [List.length_cons] at h
      refine procPairs_dup_of_found rest (procStep st pr) (by omega) ?_
      unfold procStep
      rw [hk2]
      exact mem_insertFound_self _ _

lemma procPairs_get_untouched (pairs : List (Str × ℕ)) {k : ℕ} :
    ∀ st, (pairs.filter (fun pr => pr.2 == k)) = [] →
      aget (procPairs pairs st).paragraphs k = aget st.paragraphs k := by
  induction pairs with
  | nil => intro st _; rfl
  | cons pr rest ih =>
    intro st h
    rcases hk : (pr.2 == k) with _ | _
    · rw [List.filter_cons_of_neg (by simp [hk])] at h
      show aget (procPairs rest (procStep st pr)).paragraphs k = _
      rw [ih (procStep st pr) h]
      unfold procStep
      exact aget_awrite_ne _ _ (by simpa using hk)
    · rw [List.filter_cons_of_pos (by simp [hk])] at h
      cases h

lemma procPairs_get_last (pairs : List (Str × ℕ)) {k : ℕ} {seg : Str} :
    ∀ st, (pairs.filter (fun pr => pr.2 == k)).getLast? = some (seg, k) →
      aget (procPairs pairs st).paragraphs k = some (cleanSegment seg) := by
  induction pairs with
  | nil => intro st h; simp at h
  | cons pr rest ih =>
    intro st h
    rcases hk : (pr.2 == k) with _ | _
    · rw [List.filter_cons_of_neg (by simp [hk])] at h
      exact ih (procStep st pr) h
    · have hk2 : pr.2 = k := by simpa using hk
      rw [List.filter_cons_of_pos (by simp [hk])] at h
      cases hrest : rest.filter (fun pr => pr.2 == k) with
      | nil =>
        rw [hrest] at h
        simp only [List.getLast?_singleton, Option.some_inj] at h
        have hseg : pr.1 = seg := by rw [h]
        show aget (procPairs rest (procStep st pr)).paragraphs k = _
        rw [procPairs_get_untouched rest (procStep st pr) hrest]
        unfold procStep
        simp only
        rw [hk2, hseg, aget_awrite_self]
      | cons x xs =>
        rw [hrest] at h
        rw [List.getLast?_cons_cons] at h
        rw [← hrest] at h
        exact ih (procStep st pr) h

/-- Text of the C4 counterexample and witness: marker 0 occurs twice,
preceded first by A and then by B. -/
def dupText : Str := "A[[__META_SO_PARA_0__]]B[[__META_SO_PARA_0__]]".toList

/-- Counterexample to claim C4 as stated: ordinal 0 occurs twice in
dupText; it is flagged as duplicate, but the stored content is the
segment before the second (last) occurrence, B, not the first
occurrence's segment A — the loop overwrites paragraphs at the ordinal
on every occurrence, so the last occurrence wins. -/
theorem extract_duplicate_counterexample :
    (extractTranslatedParagraphs dupText 1).duplicateMarkers = [0] ∧
    aget (extractTranslatedParagraphs dupText 1).paragraphs 0 = some ("B".toList) ∧
    some ("B".toList) ≠ some ("A".toList) := by
  refine ⟨by decide, by decide, by decide⟩

/-- Claim C4, amended: a repeated ordinal k is recorded in
duplicateMarkers, and the content stored for k is the cleaned segment of
the LAST occurrence of marker k (the loop overwrites on every
occurrence), provided the trailing-text rule does not also target k
(k differs from the last matched ordinal plus one, otherwise that rule
overwrites k afterwards). -/
theorem extract_duplicate_last_wins (text : Str) (n k : ℕ) (seg : Str)
    (hocc : 2 ≤ (((splitByMarkers text).1).filter (fun pr => pr.2 == k)).length)
    (hlast : (((splitByMarkers text).1).filter (fun pr => pr.2 == k)).getLast? = some (seg, k))
    (hnotail : ∀ pr : Str × ℕ, ((splitByMarkers text).1).getLast? = some pr → k ≠ pr.2 + 1) :
    k ∈ (extractTranslatedParagraphs text n).duplicateMarkers ∧
    aget (extractTranslatedParagraphs text n).paragraphs k = some (cleanSegment seg) := by
  have hdup := procPairs_dup_of_two (splitByMarkers text).1 ⟨[], [], []⟩ hocc
  have hget := procPairs_get_last (splitByMarkers text).1 ⟨[], [], []⟩ hlast
  unfold extractTranslatedParagraphs extractFinish extractTailStep
  cases hg : ((splitByMarkers text).1).getLast? with
  | none => exact ⟨hdup, hget⟩
  | some last =>
    simp only
    split_ifs with h
    · refine ⟨hdup, ?_⟩
      simp only
      rw [aget_awrite_ne _ _ (fun he => hnotail last hg he.symm)]
      exact hget
    · exact ⟨hdup, hget⟩

/-- Witness for the amended C4 at the concrete duplicate input. -/
theorem extract_duplicate_last_wins_witness :
    0 ∈ (extractTranslatedParagraphs dupText 1).duplicateMarkers ∧
    aget (extractTranslatedParagraphs dupText 1).paragraphs 0 =
      some (cleanSegment ("B".toList)) := by
  refine extract_duplicate_last_wins dupText 1 0 ("B".toList) (by decide) (by decide) ?_
  intro pr hpr
  have hev : ((splitByMarkers dupText).1).getLast? = some ("B".toList, 0) := by decide
  rw [hev] at hpr
  injection hpr with h
  subst h
  decide

/-- Claim C10: the implicit tail rule of the decoder — when the
positionally last marker match bears ordinal m and m + 1 is still below
expectedCount, the cleaned text after that last marker is assigned to
ordinal m + 1 and m + 1 is recorded as found, even though marker m + 1
never occurs in the text. -/
theorem extract_tail_rule (text : Str) (n : ℕ) (seg : Str) (m : ℕ)
    (hlast : ((splitByMarkers text).1).getLast? = some (seg, m))
    (hm : m + 1 < n) :
    aget (extractTranslatedParagraphs text n).paragraphs (m + 1) =
      some (cleanSegment (splitByMarkers text).2) ∧
    (m + 1) ∈ (extractTranslatedParagraphs text n).foundMarkers := by
  unfold extractTranslatedParagraphs extractFinish extractTailStep
  rw [hlast]
  simp only
  rw [if_pos hm]
  exact ⟨aget_awrite_self _ _ _, mem_insertFound_self _ _⟩

/-- Text of the C10 witness: one marker with ordinal 0, trailing text B. -/
def tailText : Str := "A[[__META_SO_PARA_0__]]B".toList

/-- Witness for C10 at a concrete input. -/
theorem extract_tail_rule_witness :
    aget (extractTranslatedParagraphs tailText 2).paragraphs 1 =
      some (cleanSegment (splitByMarkers tailText).2) ∧
    1 ∈ (extractTranslatedParagraphs tailText 2).foundMarkers :=
  extract_tail_rule tailText 2 ("A".toList) 0 (by decide) (by decide)

/-! Document reassembly (markdownProcessor.ts, current version: the one
that also defines isEmptyParagraph and cleanEmptyParagraphs imported by
the translation handlers). -/

/-- markdownProcessor.ts isEmptyParagraph: empty or whitespace-only. -/
def isEmptyParagraph (text : Str) : Bool :=
  if text = [] then true else (jsTrim text).length == 0

/-- MetaSoMarkdownItem from types. -/
structure MetaSoMarkdownItem where
  markdown_lang : List Str
  markdown : List Str
  page : ℕ
  could_translate : Bool
  deriving DecidableEq

/-- The key string itemIndex-paragraphIndex used for the translated
paragraph map. -/
def keyOf (itemIndex paragraphIndex : ℕ) : Str :=
  natDigits itemIndex ++ "-".toList ++ natDigits paragraphIndex

/-- A JS Map of strings, modelled as an association list, newest binding
first. -/
abbrev StrMap := List (Str × Str)

/-- Map.prototype.get. -/
def mget (m : StrMap) (k : Str) : Option Str :=
  (m.find? (fun e => e.1 == k)).map (fun e => e.2)

/-- Map.prototype.set. -/
def mset (m : StrMap) (k : Str) (v : Str) : StrMap := (k, v) :: m

/-- The body of the forEach push in assembleTranslatedContent: keep a
looked-up translation only when it is truthy and not whitespace-only. -/
def keepTranslated (o : Option Str) : Option Str :=
  match o with
  | some t => if t ≠ [] ∧ isEmptyParagraph t = false then some t else none
  | none => none

/-- The translated paragraph list of one item: for each original
paragraph slot look up the key and push the translation only when it
exists and is not empty. -/
def assembleItemLang (itemIndex : ℕ) (markdown : List Str) (m : StrMap) : List Str :=
  (markdown.mapIdx (fun paragraphIndex _ => mget m (keyOf itemIndex paragraphIndex))).filterMap
    keepTranslated

/-- markdownProcessor.ts assembleTranslatedContent (current version):
missing or empty translations are skipped, not rendered as empty
strings. -/
def assembleTranslatedContent (originalItems : List MetaSoMarkdownItem) (m : StrMap) :
    List MetaSoMarkdownItem :=
  originalItems.mapIdx (fun itemIndex item =>
    { markdown_lang := assembleItemLang itemIndex item.markdown m,
      markdown := item.markdown,
      page := item.page,
      could_translate := true })

/-- Item list of the C7 counterexample: one page with one paragraph. -/
def ceItems : List MetaSoMarkdownItem := [⟨[], ["a".toList], 0, true⟩]

/-- Counterexample to claim C7 as stated: with an empty translation map
the assembled item has an empty markdown_lang, not a one-slot array
holding the empty string, so the translated array is shorter than the
original paragraph array. -/
theorem assemble_length_counterexample :
    ((assembleTranslatedContent ceItems []).map (fun it => it.markdown_lang.length)) = [0] ∧
    (ceItems.map (fun it => it.markdown.length)) = [1] ∧ (0 : ℕ) ≠ 1 := by
  refine ⟨by decide, by decide, by decide⟩

lemma filterMap_keep_full (md : List Str) :
    ∀ g : ℕ → Option Str,
    (∀ j < md.length, ∃ t, g j = some t ∧ t ≠ [] ∧ isEmptyParagraph t = false) →
    (md.mapIdx (fun j _ => g j)).filterMap keepTranslated =
      md.mapIdx (fun j _ => (g j).getD []) := by
  induction md with
  | nil => intro g _; rfl
  | cons x xs ih =>
    intro g hg
    obtain ⟨t, ht, htne, htemp⟩ := hg 0 (by simp)
    rw [List.mapIdx_cons, List.mapIdx_cons, List.filterMap_cons]
    have hkeep : keepTranslated (g 0) = some t := by
      rw [ht]
      simp [keepTranslated, htne, htemp]
    rw [hkeep, ht]
    simp only [Option.getD_some]
    congr 1
    exact ih (fun j => g (j + 1)) (fun j hj => hg (j + 1) (by simpa using hj))

lemma assemble_getElem (originalItems : List MetaSoMarkdownItem) (m : StrMap)
    {i : ℕ} (hi : i < originalItems.length) :
    (assembleTranslatedContent originalItems m).get
        ⟨i, by simpa [assembleTranslatedContent]⟩ =
      { markdown_lang := assembleItemLang i (originalItems[i]).markdown m,
        markdown := (originalItems[i]).markdown,
        page := (originalItems[i]).page,
        could_translate := true } := by
  simp [assembleTranslatedContent]

/-- Claim C7, amended: reassembly keeps one output item per original
item, but within an item it appends only the paragraph slots whose
looked-up translation exists and is not empty-or-whitespace — missing
slots are skipped, not rendered as empty strings, so markdown_lang can
be shorter than the original paragraph array; when every slot has a
kept translation the lengths agree and each slot is the looked-up
text. -/
theorem assemble_skips_missing (originalItems : List MetaSoMarkdownItem) (m : StrMap) :
    (assembleTranslatedContent originalItems m).length = originalItems.length ∧
    (∀ i (hi : i < originalItems.length),
      ((assembleTranslatedContent originalItems m).get
          ⟨i, by simpa [assembleTranslatedContent]⟩).markdown_lang.length ≤
        (originalItems[i]).markdown.length ∧
      ((∀ j < (originalItems[i]).markdown.length,
          ∃ t, mget m (keyOf i j) = some t ∧ t ≠ [] ∧ isEmptyParagraph t = false) →
        ((assembleTranslatedContent originalItems m).get
            ⟨i, by simpa [assembleTranslatedContent]⟩).markdown_lang =
          (originalItems[i]).markdown.mapIdx (fun j _ => (mget m (keyOf i j)).getD []))) := by
  refine ⟨by simp [assembleTranslatedContent], ?_⟩
  intro i hi
  rw [assemble_getElem originalItems m hi]
  dsimp only
  constructor
  · have h1 := List.length_filterMap_le keepTranslated
      ((originalItems[i]).markdown.mapIdx (fun paragraphIndex _ => mget m (keyOf i paragraphIndex)))
    have h2 : ((originalItems[i]).markdown.mapIdx
        (fun paragraphIndex _ => mget m (keyOf i paragraphIndex))).length =
        (originalItems[i]).markdown.length := by simp
    simp only [assembleItemLang]
    omega
  · intro hfull
    simp only [assembleItemLang]
    exact filterMap_keep_full (originalItems[i]).markdown (fun j => mget m (keyOf i j)) hfull

/-- Items of the C7 witness. -/
def exItems : List MetaSoMarkdownItem := [⟨[], ["a".toList, "b".toList], 3, false⟩]

/-- Map of the C7 witness: both slots of item 0 present and non-empty. -/
def exMap : StrMap := [("0-0".toList, "x".toList), ("0-1".toList, "y".toList)]

/-- Witness for the amended C7 at a concrete input. -/
theorem assemble_skips_missing_witness :
    (assembleTranslatedContent exItems exMap).length = exItems.length ∧
    (((assembleTranslatedContent exItems exMap).get ⟨0, by decide⟩).markdown_lang.length ≤
      (exItems[0]).markdown.length ∧
    ((∀ j < (exItems[0]).markdown.length,
        ∃ t, mget exMap (keyOf 0 j) = some t ∧ t ≠ [] ∧ isEmptyParagraph t = false) →
      ((assembleTranslatedContent exItems exMap).get ⟨0, by decide⟩).markdown_lang =
        (exItems[0]).markdown.mapIdx (fun j _ => (mget exMap (keyOf 0 j)).getD []))) :=
  ⟨(assemble_skips_missing exItems exMap).1,
   (assemble_skips_missing exItems exMap).2 0 (by decide)⟩

/-! The rate limiter (utils/rateLimiter.ts, class RateLimiter).  Methods
that mutate this.requests are modelled as functions from limiter state
and the current clock to the new state (and return value); the async
sleep of waitIfNeeded is modelled by returning the wake-up time. -/

/-- The rate limiter state: recorded request timestamps (in order),
the admission capacity and the sliding window width in milliseconds. -/
structure RateLimiter where
  requests : List ℤ
  maxRequests : ℕ
  windowMs : ℤ
  deriving DecidableEq

/-- The pruning this.requests = this.requests.filter(now - time < windowMs)
performed by canMakeRequest and getWaitTime. -/
def pruneRequests (rl : RateLimiter) (now : ℤ) : RateLimiter :=
  { rl with requests := rl.requests.filter (fun time => now - time < rl.windowMs) }

/-- RateLimiter.canMakeRequest: prune, then compare against capacity. -/
def canMakeRequest (rl : RateLimiter) (now : ℤ) : RateLimiter × Bool :=
  (pruneRequests rl now, (pruneRequests rl now).requests.length < rl.maxRequests)

/-- RateLimiter.recordRequest: push the current timestamp. -/
def recordRequest (rl : RateLimiter) (now : ℤ) : RateLimiter :=
  { rl with requests := rl.requests ++ [now] }

/-- RateLimiter.getWaitTime: prune; zero when below capacity, else the
time until the oldest recorded request leaves the window.  (When the
pruned list is empty at capacity zero the source reads requests[0] as
undefined and yields NaN; that corner is modelled by taking the oldest
timestamp as zero.) -/
def getWaitTime (rl : RateLimiter) (now : ℤ) : RateLimiter × ℤ :=
  if (pruneRequests rl now).requests.length < rl.maxRequests then (pruneRequests rl now, 0)
  else (pruneRequests rl now, (pruneRequests rl now).requests.headD 0 + rl.windowMs - now)

/-- RateLimiter.waitIfNeeded: compute the wait time once and sleep that
long when positive.  Returns the state after the call and the wake-up
time.  No timestamp is recorded here; recordRequest is a separate call
made by the orchestrator after the translation request completes. -/
def waitIfNeeded (rl : RateLimiter) (now : ℤ) : RateLimiter × ℤ :=
  if (getWaitTime rl now).2 > 0 then ((getWaitTime rl now).1, now + (getWaitTime rl now).2)
  else ((getWaitTime rl now).1, now)

/-- The fresh global limiter new RateLimiter() with the configured
CONFIG.RATE_LIMIT defaults. -/
def freshRateLimiter : RateLimiter := ⟨[], 60, 60000⟩

/-- Counterexample to claim C8 as stated: across a waitIfNeeded call on
the fresh limiter the request list does not grow at all — the length
stays zero, so no timestamp of the admitted request is recorded by the
admission wait. -/
theorem waitIfNeeded_counterexample :
    (waitIfNeeded freshRateLimiter 5).1.requests.length = 0 ∧
    freshRateLimiter.requests.length = 0 ∧
    ¬ (waitIfNeeded freshRateLimiter 5).1.requests.length >
        freshRateLimiter.requests.length := by
  refine ⟨by decide, by decide, by decide⟩

/-- Claim C8, amended: waitIfNeeded computes getWaitTime once, sleeps
exactly that long when positive, and never records a timestamp — the
request list is only pruned (it keeps a subset of the old timestamps and
never grows); the admitted request's timestamp is added only by the
separate recordRequest call, which the orchestrator issues after the
translation call returns, and which grows the list by exactly one. -/
theorem waitIfNeeded_no_record (rl : RateLimiter) (now : ℤ) :
    (waitIfNeeded rl now).1.requests =
      rl.requests.filter (fun time => now - time < rl.windowMs) ∧
    (waitIfNeeded rl now).1.requests.length ≤ rl.requests.length ∧
    (∀ t ∈ (waitIfNeeded rl now).1.requests, t ∈ rl.requests) ∧
    (waitIfNeeded rl now).2 = now + max (getWaitTime rl now).2 0 ∧
    (recordRequest rl now).requests.length = rl.requests.length + 1 := by
  have hstate : (waitIfNeeded rl now).1 = pruneRequests rl now := by
    unfold waitIfNeeded getWaitTime
    split_ifs <;> rfl
  refine ⟨by rw [hstate]; rfl, ?_, ?_, ?_, by simp [recordRequest]⟩
  · rw [hstate]
    exact List.length_filter_le _ _
  · intro t ht
    rw [hstate] at ht
    exact List.mem_of_mem_filter ht
  · unfold waitIfNeeded
    split_ifs with h
    · simp only
      omega
    · simp only
      omega

/-! Structural lemmas about the marker matcher, leading to the C3
round-trip theorem. -/

lemma dropLit_append (l s : Str) : dropLit l (l ++ s) = some s := by
  induction l with
  | nil => rfl
  | cons c t ih => simp [dropLit, ih]

lemma dropLit_some (l : Str) : ∀ s r, dropLit l s = some r → s = l ++ r := by
  induction l with
  | nil =>
    intro s r h
    have h2 : s = r := Option.some.inj h
    simpa using h2
  | cons c t ih =>
    intro s r h
    cases s with
    | nil => exact absurd h (by simp [dropLit])
    | cons x xs =>
      simp only [dropLit] at h
      split_ifs at h with hx
      rw [List.cons_append, ← ih xs r h, hx]

lemma takeDigits_spec (s : Str) :
    s = (takeDigits s).1 ++ (takeDigits s).2 ∧
    (∀ c ∈ (takeDigits s).1, c.isDigit = true) ∧
    (∀ c, (takeDigits s).2.head? = some c → c.isDigit = false) := by
  induction s with
  | nil => exact ⟨rfl, by simp [takeDigits], by simp [takeDigits]⟩
  | cons x xs ih =>
    by_cases hx : x.isDigit
    · refine ⟨?_, ?_, ?_⟩
      · simp only [takeDigits, hx, if_true, List.cons_append]
        exact congrArg (x :: ·) ih.1
      · intro c hc
        simp only [takeDigits, hx, if_true] at hc
        rcases List.mem_cons.mp hc with rfl | hmem
        · exact hx
        · exact ih.2.1 c hmem
      · intro c hc
        simp only [takeDigits, hx, if_true] at hc
        exact ih.2.2 c hc
    · have hx' : x.isDigit = false := by simpa using hx
      refine ⟨?_, ?_, ?_⟩
      · simp [takeDigits, hx']
      · intro c hc
        simp [takeDigits, hx'] at hc
      · intro c hc
        simp [takeDigits, hx'] at hc
        rw [← hc]
        exact hx'

lemma takeDigits_append (d r : Str) (hd : ∀ c ∈ d, c.isDigit = true)
    (hr : ∀ c, r.head? = some c → c.isDigit = false) :
    takeDigits (d ++ r) = (d, r) := by
  induction d with
  | nil =>
    cases r with
    | nil => rfl
    | cons x xs =>
      have := hr x (by simp)
      simp [takeDigits, this]
  | cons c t ih =>
    have hc := hd c (by simp)
    have ih2 := ih (fun c hc => hd c (by simp [hc]))
    simp only [List.cons_append, takeDigits, hc, if_true, List.append_eq, ih2]

lemma matchMarkerAt_some {s : Str} {k : ℕ} {rest : Str}
    (h : matchMarkerAt s = some (k, rest)) :
    ∃ ds, ds ≠ [] ∧ (∀ c ∈ ds, c.isDigit = true) ∧ k = digitsToNat ds ∧
      s = markerPre ++ ds ++ markerSuf ++ rest := by
  unfold matchMarkerAt at h
  cases h1 : dropLit markerPre s with
  | none => rw [h1] at h; cases h
  | some s1 =>
    rw [h1] at h
    dsimp only at h
    split_ifs at h with hds
    cases h2 : dropLit markerSuf (takeDigits s1).2 with
    | none =>
      rw [h2] at h
      exact absurd h (by simp)
    | some s3 =>
      rw [h2] at h
      dsimp only at h
      have hk : digitsToNat (takeDigits s1).1 = k :=
        congrArg Prod.fst (Option.some.inj h)
      have hrest : s3 = rest := congrArg Prod.snd (Option.some.inj h)
      refine ⟨(takeDigits s1).1, hds, (takeDigits_spec s1).2.1, hk.symm, ?_⟩
      have e1 := dropLit_some markerPre s s1 h1
      have e2 := (takeDigits_spec s1).1
      have e3 := dropLit_some markerSuf _ s3 h2
      calc s = markerPre ++ s1 := e1
        _ = markerPre ++ ((takeDigits s1).1 ++ (takeDigits s1).2) := by rw [← e2]
        _ = markerPre ++ ((takeDigits s1).1 ++ (markerSuf ++ rest)) := by rw [e3, hrest]
        _ = markerPre ++ (takeDigits s1).1 ++ markerSuf ++ rest := by
              simp [List.append_assoc]

lemma matchMarkerAt_mk (ds rest : Str) (hne : ds ≠ []) (hd : ∀ c ∈ ds, c.isDigit = true) :
    matchMarkerAt (markerPre ++ ds ++ markerSuf ++ rest) = some (digitsToNat ds, rest) := by
  unfold matchMarkerAt
  rw [show markerPre ++ ds ++ markerSuf ++ rest = markerPre ++ (ds ++ (markerSuf ++ rest)) by
    simp [List.append_assoc]]
  rw [dropLit_append]
  dsimp only
  have ht : takeDigits (ds ++ (markerSuf ++ rest)) = (ds, markerSuf ++ rest) := by
    refine takeDigits_append ds (markerSuf ++ rest) hd ?_
    intro c hc
    have hh : (markerSuf ++ rest).head? = some '_' := by
      rw [show markerSuf = '_' :: "_]]".toList from rfl]
      simp
    rw [hh] at hc
    injection hc with hc
    rw [← hc]
    decide
  rw [ht]
  simp only [hne, if_false]
  rw [dropLit_append]

lemma matchMarkerAt_rest_lt {s : Str} {k : ℕ} {rest : Str}
    (h : matchMarkerAt s = some (k, rest)) : rest.length < s.length := by
  obtain ⟨ds, hne, _, _, hs⟩ := matchMarkerAt_some h
  rw [hs]
  have hp : 0 < markerPre.length := by decide
  simp only [List.length_append]
  omega

lemma matchMarkerAt_nil : matchMarkerAt ([] : Str) = none := by decide

lemma matchMarkerAt_ne_bracket {c : Char} (hc : ¬ c = '[') (s : Str) :
    matchMarkerAt (c :: s) = none := by
  unfold matchMarkerAt
  rw [show markerPre = '[' :: "[__META_SO_PARA_".toList from rfl]
  simp [dropLit, hc]

lemma digitChar_isDigit : ∀ d < 10, (digitChar d).isDigit = true := by decide

lemma digitChar_toNat : ∀ d < 10, (digitChar d).toNat = 48 + d := by decide

lemma digitsToNat_append_one (ds : Str) (c : Char) :
    digitsToNat (ds ++ [c]) = 10 * digitsToNat ds + (c.toNat - 48) := by
  simp [digitsToNat, List.foldl_append, Nat.mul_comm]

lemma natDigitsF_fuel : ∀ f g n, n < f → n < g → natDigitsF f n = natDigitsF g n := by
  intro f
  induction f with
  | zero => intro g n h; omega
  | succ f ih =>
    intro g n hf hg
    cases g with
    | zero => omega
    | succ g =>
      by_cases h10 : n < 10
      · simp [natDigitsF, h10]
      · simp only [natDigitsF, h10, if_false]
        rw [ih g (n / 10) (by omega) (by omega)]

lemma natDigits_unfold (n : ℕ) :
    natDigits n = if n < 10 then [digitChar n] else natDigits (n / 10) ++ [digitChar (n % 10)] := by
  have e : natDigits n =
      if n < 10 then [digitChar n] else natDigitsF n (n / 10) ++ [digitChar (n % 10)] := rfl
  rw [e]
  by_cases h10 : n < 10
  · rw [if_pos h10, if_pos h10]
  · rw [if_neg h10, if_neg h10]
    congr 1
    exact natDigitsF_fuel n (n / 10 + 1) (n / 10) (by omega) (by omega)

lemma natDigits_ne_nil (n : ℕ) : natDigits n ≠ [] := by
  rw [natDigits_unfold]
  split_ifs <;> simp

lemma natDigits_all_digit (n : ℕ) : ∀ c ∈ natDigits n, c.isDigit = true := by
  induction n using Nat.strong_induction_on with
  | _ n ih =>
    rw [natDigits_unfold]
    split_ifs with h10
    · intro c hc
      rw [List.mem_singleton] at hc
      subst hc
      exact digitChar_isDigit n h10
    · intro c hc
      rcases List.mem_append.mp hc with hm | hm
      · exact ih (n / 10) (by omega) c hm
      · rw [List.mem_singleton] at hm
        subst hm
        exact digitChar_isDigit (n % 10) (by omega)

lemma digitsToNat_natDigits (n : ℕ) : digitsToNat (natDigits n) = n := by
  induction n using Nat.strong_induction_on with
  | _ n ih =>
    rw [natDigits_unfold]
    split_ifs with h10
    · show digitsToNat [digitChar n] = n
      simp [digitsToNat, digitChar_toNat n h10]
    · rw [digitsToNat_append_one, ih (n / 10) (by omega), digitChar_toNat (n % 10) (by omega)]
      omega

lemma mem_of_getElemQ {α : Type} {l : List α} : ∀ {i : ℕ} {a : α}, l[i]? = some a → a ∈ l := by
  induction l with
  | nil => intro i a h; simp at h
  | cons x t ih =>
    intro i a h
    cases i with
    | zero =>
      simp at h
      simp [h]
    | succ j =>
      rw [List.getElem?_cons_succ] at h
      exact List.mem_cons_of_mem x (ih h)

lemma markerPre_bracket : ∀ i, markerPre[i]? = some '[' → i ≤ 1 := by
  intro i h
  by_cases hlt : i < markerPre.length
  · have hb : ∀ j (h2 : j < markerPre.length), markerPre[j]? = some '[' → j ≤ 1 := by decide
    exact hb i hlt h
  · rw [List.getElem?_eq_none (le_of_not_lt hlt)] at h
    cases h

lemma consumed_bracket (ds : Str) (hds : ∀ c ∈ ds, c.isDigit = true) :
    ∀ i, (markerPre ++ ds ++ markerSuf)[i]? = some '[' → i ≤ 1 := by
  intro i h
  rw [List.append_assoc] at h
  by_cases h17 : i < markerPre.length
  · rw [List.getElem?_append_left h17] at h
    exact markerPre_bracket i h
  · exfalso
    rw [List.getElem?_append_right (le_of_not_lt h17)] at h
    have hmem : '[' ∈ ds ++ markerSuf := mem_of_getElemQ h
    rcases List.mem_append.mp hmem with hm | hm
    · have := hds _ hm
      exact absurd this (by decide)
    · exact absurd hm (by decide)

lemma consumed_no_newline (ds : Str) (hds : ∀ c ∈ ds, c.isDigit = true) :
    ∀ c ∈ markerPre ++ ds ++ markerSuf, ¬ c = '\n' := by
  intro c hc
  rcases List.mem_append.mp hc with hm | hm
  · rcases List.mem_append.mp hm with hp | hd
    · intro he
      subst he
      exact absurd hp (by decide)
    · intro he
      subst he
      have := hds _ hd
      exact absurd this (by decide)
  · intro he
    subst he
    exact absurd hm (by decide)

lemma matchMarkerAt_prefix {u : Str} (w : Str) {k : ℕ} {r : Str}
    (hm : matchMarkerAt (u ++ w) = some (k, r))
    (hle : (u ++ w).length - r.length ≤ u.length) :
    ∃ r2, matchMarkerAt u = some (k, r2) := by
  obtain ⟨ds, hne, hdig, hk, hs⟩ := matchMarkerAt_some hm
  have hs2 : u ++ w = (markerPre ++ ds ++ markerSuf) ++ r := by
    rw [hs]
  have hlen := congrArg List.length hs2
  simp only [List.length_append] at hlen
  have hcle : (markerPre ++ ds ++ markerSuf).length ≤ u.length := by
    simp only [List.length_append] at hle ⊢
    omega
  have htake : u.take (markerPre ++ ds ++ markerSuf).length = markerPre ++ ds ++ markerSuf := by
    have h1 : ((markerPre ++ ds ++ markerSuf) ++ r).take (markerPre ++ ds ++ markerSuf).length =
        markerPre ++ ds ++ markerSuf := List.take_left _ _
    rw [← hs2] at h1
    rw [List.take_append_of_le_length hcle] at h1
    exact h1
  have hu2 : u = (markerPre ++ ds ++ markerSuf) ++ u.drop (markerPre ++ ds ++ markerSuf).length := by
    conv_lhs => rw [← List.take_append_drop (markerPre ++ ds ++ markerSuf).length u]
    rw [htake]
  refine ⟨u.drop (markerPre ++ ds ++ markerSuf).length, ?_⟩
  rw [hk]
  calc matchMarkerAt u
      = matchMarkerAt ((markerPre ++ ds ++ markerSuf) ++
          u.drop (markerPre ++ ds ++ markerSuf).length) := by rw [← hu2]
    _ = some (digitsToNat ds, u.drop (markerPre ++ ds ++ markerSuf).length) := by
        rw [show (markerPre ++ ds ++ markerSuf) ++ u.drop (markerPre ++ ds ++ markerSuf).length =
          markerPre ++ ds ++ markerSuf ++ u.drop (markerPre ++ ds ++ markerSuf).length by
            simp [List.append_assoc]]
        exact matchMarkerAt_mk ds _ hne hdig

lemma matchMarkerAt_append_newline (u v : Str) (hu : matchMarkerAt u = none) :
    matchMarkerAt (u ++ '\n' :: v) = none := by
  cases hm : matchMarkerAt (u ++ '\n' :: v) with
  | none => rfl
  | some kr =>
    exfalso
    obtain ⟨k, r⟩ := kr
    obtain ⟨ds, hne, hdig, hk, hs⟩ := matchMarkerAt_some hm
    have hs2 : u ++ '\n' :: v = (markerPre ++ ds ++ markerSuf) ++ r := by
      rw [hs]
    have hlen := congrArg List.length hs2
    simp only [List.length_append, List.length_cons] at hlen
    rcases Nat.lt_or_ge u.length (markerPre ++ ds ++ markerSuf).length with hlt | hge
    · have e1 : (u ++ '\n' :: v)[u.length]? = some '\n' := by
        rw [List.getElem?_append_right (le_refl u.length)]
        simp
      rw [hs2, List.getElem?_append_left hlt] at e1
      have hmem : '\n' ∈ markerPre ++ ds ++ markerSuf := mem_of_getElemQ e1
      exact consumed_no_newline ds hdig _ hmem rfl
    · have hle : (u ++ '\n' :: v).length - r.length ≤ u.length := by
        simp only [List.length_append, List.length_cons]
        simp only [List.length_append] at hge
        omega
      obtain ⟨r2, hr2⟩ := matchMarkerAt_prefix ('\n' :: v) hm hle
      rw [hu] at hr2
      cases hr2

lemma matchMarkerAt_append_brackets (u z : Str) (hu0 : u ≠ []) (hu : matchMarkerAt u = none) :
    matchMarkerAt (u ++ '[' :: '[' :: z) = none := by
  cases hm : matchMarkerAt (u ++ '[' :: '[' :: z) with
  | none => rfl
  | some kr =>
    exfalso
    obtain ⟨k, r⟩ := kr
    obtain ⟨ds, hne, hdig, hk, hs⟩ := matchMarkerAt_some hm
    have hs2 : u ++ '[' :: '[' :: z = (markerPre ++ ds ++ markerSuf) ++ r := by
      rw [hs]
    have hlen := congrArg List.length hs2
    simp only [List.length_append, List.length_cons] at hlen
    have hds1 : 1 ≤ ds.length := by
      cases ds with
      | nil => exact absurd rfl hne
      | cons a t => simp
    have hpre17 : markerPre.length = 17 := by decide
    have hsuf4 : markerSuf.length = 4 := by decide
    have hclen : 22 ≤ (markerPre ++ ds ++ markerSuf).length := by
      simp only [List.length_append]
      omega
    rcases Nat.lt_or_ge u.length (markerPre ++ ds ++ markerSuf).length with hlt | hge
    · have e1 : (u ++ '[' :: '[' :: z)[u.length]? = some '[' := by
        rw [List.getElem?_append_right (le_refl u.length)]
        simp
      rw [hs2, List.getElem?_append_left hlt] at e1
      have hle1 := consumed_bracket ds hdig u.length e1
      have hu1 : u.length = 1 := by
        have : u.length ≠ 0 := fun h0 => hu0 (List.length_eq_zero.mp h0)
        omega
      obtain ⟨a, ha⟩ := List.length_eq_one.mp hu1
      subst ha
      have e6 : ([a] ++ '[' :: '[' :: z)[2]? = some '[' := by simp
      have h2c : 2 < (markerPre ++ ds ++ markerSuf).length := by omega
      rw [hs2, List.getElem?_append_left h2c] at e6
      rw [List.append_assoc, List.getElem?_append_left (by omega : 2 < markerPre.length)] at e6
      have : markerPre[2]? = some '_' := by decide
      rw [this] at e6
      exact absurd (Option.some.inj e6) (by decide)
    · have hle : (u ++ '[' :: '[' :: z).length - r.length ≤ u.length := by
        simp only [List.length_append, List.length_cons]
        simp only [List.length_append] at hge
        omega
      obtain ⟨r2, hr2⟩ := matchMarkerAt_prefix ('[' :: '[' :: z) hm hle
      rw [hu] at hr2
      cases hr2

/-- The join separator and padding used by injectMarkers: two newlines. -/
def nl2 : Str := '\n' :: '\n' :: []

lemma containsMarker_cons (c : Char) (t : Str) :
    containsMarker (c :: t) = ((matchMarkerAt (c :: t)).isSome || containsMarker t) := rfl

lemma cm_false_head {c : Char} {t : Str} (h : containsMarker (c :: t) = false) :
    matchMarkerAt (c :: t) = none ∧ containsMarker t = false := by
  rw [containsMarker_cons] at h
  rcases hm : matchMarkerAt (c :: t) with _ | kr
  · rw [hm] at h
    simpa using h
  · rw [hm] at h
    simp at h

lemma cm_append_newline (u v : Str) (hu : containsMarker u = false)
    (hv : containsMarker v = false) : containsMarker (u ++ '\n' :: v) = false := by
  induction u with
  | nil =>
    rw [List.nil_append, containsMarker_cons,
      matchMarkerAt_ne_bracket (by decide : ¬ '\n' = '[') v]
    simpa using hv
  | cons c t ih =>
    obtain ⟨hm, ht⟩ := cm_false_head hu
    rw [List.cons_append, containsMarker_cons]
    have hnone : matchMarkerAt ((c :: t) ++ '\n' :: v) = none :=
      matchMarkerAt_append_newline (c :: t) v hm
    rw [List.cons_append] at hnone
    rw [hnone]
    simpa using ih ht

lemma cm_pad_right (u : Str) (hu : containsMarker u = false) :
    containsMarker (u ++ nl2) = false :=
  cm_append_newline u ['\n'] hu (by decide)

lemma cm_cons_nl {w : Str} (hw : containsMarker w = false) :
    containsMarker ('\n' :: w) = false := by
  have := cm_append_newline [] w rfl hw
  simpa using this

lemma cm_pad_left (w : Str) (hw : containsMarker w = false) :
    containsMarker (nl2 ++ w) = false := by
  show containsMarker ('\n' :: ('\n' :: w)) = false
  exact cm_cons_nl (cm_cons_nl hw)

lemma splitGo_nilStr : ∀ f (acc : Str), splitGo f [] acc = ([], acc.reverse) := by
  intro f acc
  cases f with
  | zero => simp [splitGo]
  | succ g =>
    show (match matchMarkerAt [] with
      | some (k, rest) =>
        (((acc.reverse, k) :: (splitGo g rest []).1, (splitGo g rest []).2) : List (Str × ℕ) × Str)
      | none => ([], acc.reverse)) = ([], acc.reverse)
    rw [matchMarkerAt_nil]

lemma splitGo_fuel : ∀ f g (s acc : Str), s.length ≤ f → s.length ≤ g →
    splitGo f s acc = splitGo g s acc := by
  intro f
  induction f with
  | zero =>
    intro g s acc hf hg
    have : s = [] := List.length_eq_zero.mp (by omega)
    subst this
    rw [splitGo_nilStr, splitGo_nilStr]
  | succ f ih =>
    intro g s acc hf hg
    cases s with
    | nil => rw [splitGo_nilStr, splitGo_nilStr]
    | cons c t =>
      cases g with
      | zero => simp at hg
      | succ g =>
        show (match matchMarkerAt (c :: t) with
          | some (k, rest) =>
            (((acc.reverse, k) :: (splitGo f rest []).1, (splitGo f rest []).2) :
              List (Str × ℕ) × Str)
          | none => match c :: t with
            | [] => ([], acc.reverse)
            | c :: t => splitGo f t (c :: acc)) =
          (match matchMarkerAt (c :: t) with
          | some (k, rest) =>
            (((acc.reverse, k) :: (splitGo g rest []).1, (splitGo g rest []).2) :
              List (Str × ℕ) × Str)
          | none => match c :: t with
            | [] => ([], acc.reverse)
            | c :: t => splitGo g t (c :: acc))
        cases hm : matchMarkerAt (c :: t) with
        | some kr =>
          obtain ⟨k, rest⟩ := kr
          have hlt := matchMarkerAt_rest_lt hm
          simp only [List.length_cons] at hf hg hlt
          dsimp only
          rw [ih g rest [] (by omega) (by omega)]
        | none =>
          dsimp only
          simp only [List.length_cons] at hf hg
          exact ih g t (c :: acc) (by omega) (by omega)

lemma splitGo_clean : ∀ (s : Str), containsMarker s = false →
    ∀ f (acc : Str), s.length ≤ f → splitGo f s acc = ([], acc.reverse ++ s) := by
  intro s
  induction s with
  | nil =>
    intro _ f acc _
    rw [splitGo_nilStr]
    simp
  | cons c t ih =>
    intro hcm f acc hf
    obtain ⟨hm, ht⟩ := cm_false_head hcm
    cases f with
    | zero => simp at hf
    | succ f =>
      show (match matchMarkerAt (c :: t) with
        | some (k, rest) =>
          (((acc.reverse, k) :: (splitGo f rest []).1, (splitGo f rest []).2) :
            List (Str × ℕ) × Str)
        | none => match c :: t with
          | [] => ([], acc.reverse)
          | c :: t => splitGo f t (c :: acc)) = ([], acc.reverse ++ c :: t)
      rw [hm]
      dsimp only
      simp only [List.length_cons] at hf
      rw [ih ht f (c :: acc) (by omega)]
      simp

lemma stripGo_fuel : ∀ f g (s : Str), s.length ≤ f → s.length ≤ g →
    stripGo f s = stripGo g s := by
  intro f
  induction f with
  | zero =>
    intro g s hf hg
    have : s = [] := List.length_eq_zero.mp (by omega)
    subst this
    cases g <;> simp [stripGo, matchMarkerAt_nil]
  | succ f ih =>
    intro g s hf hg
    cases s with
    | nil =>
      cases g <;> simp [stripGo, matchMarkerAt_nil]
    | cons c t =>
      cases g with
      | zero => simp at hg
      | succ g =>
        show (match matchMarkerAt (c :: t) with
          | some (_, rest) => stripGo f rest
          | none => match c :: t with
            | [] => ([] : Str)
            | c :: t => c :: stripGo f t) =
          (match matchMarkerAt (c :: t) with
          | some (_, rest) => stripGo g rest
          | none => match c :: t with
            | [] => ([] : Str)
            | c :: t => c :: stripGo g t)
        cases hm : matchMarkerAt (c :: t) with
        | some kr =>
          obtain ⟨k, rest⟩ := kr
          have hlt := matchMarkerAt_rest_lt hm
          simp only [List.length_cons] at hf hg hlt
          dsimp only
          rw [ih g rest (by omega) (by omega)]
        | none =>
          dsimp only
          simp only [List.length_cons] at hf hg
          rw [ih g t (by omega) (by omega)]

lemma stripGo_clean : ∀ (s : Str), containsMarker s = false →
    ∀ f, s.length ≤ f → stripGo f s = s := by
  intro s
  induction s with
  | nil =>
    intro _ f _
    cases f <;> simp [stripGo, matchMarkerAt_nil]
  | cons c t ih =>
    intro hcm f hf
    obtain ⟨hm, ht⟩ := cm_false_head hcm
    cases f with
    | zero => simp at hf
    | succ f =>
      show (match matchMarkerAt (c :: t) with
        | some (_, rest) => stripGo f rest
        | none => match c :: t with
          | [] => ([] : Str)
          | c :: t => c :: stripGo f t) = c :: t
      rw [hm]
      dsimp only
      simp only [List.length_cons] at hf
      rw [ih ht f (by omega)]

lemma stripMarkers_clean (s : Str) (h : containsMarker s = false) : stripMarkers s = s :=
  stripGo_clean s h s.length (le_refl _)

lemma markerStr_decomp (k : ℕ) (rest : Str) :
    markerStr k ++ rest = markerPre ++ natDigits k ++ markerSuf ++ rest := by
  rw [markerStr]

lemma matchMarkerAt_markerStr (k : ℕ) (rest : Str) :
    matchMarkerAt (markerStr k ++ rest) = some (k, rest) := by
  rw [markerStr_decomp]
  rw [matchMarkerAt_mk (natDigits k) rest (natDigits_ne_nil k) (natDigits_all_digit k)]
  rw [digitsToNat_natDigits]

lemma markerStr_brackets (k : ℕ) :
    ∃ z, markerStr k = '[' :: '[' :: z := by
  refine ⟨"__META_SO_PARA_".toList ++ natDigits k ++ markerSuf, ?_⟩
  rw [markerStr, show markerPre = '[' :: '[' :: "__META_SO_PARA_".toList from rfl]
  simp

lemma splitGo_seg_marker : ∀ (a : Str), containsMarker a = false →
    ∀ (k : ℕ) (rest : Str) (f : ℕ) (acc : Str),
    (a ++ markerStr k ++ rest).length ≤ f →
    splitGo f (a ++ markerStr k ++ rest) acc =
      ((acc.reverse ++ a, k) :: (splitGo rest.length rest []).1,
        (splitGo rest.length rest []).2) := by
  intro a
  induction a with
  | nil =>
    intro _ k rest f acc hf
    simp only [List.nil_append] at hf ⊢
    have hlen : 22 ≤ (markerStr k).length := by
      rw [markerStr]
      have h1 : 1 ≤ (natDigits k).length := by
        cases hd : natDigits k with
        | nil => exact absurd hd (natDigits_ne_nil k)
        | cons x t => simp
      have hp : markerPre.length = 17 := by decide
      have hs : markerSuf.length = 4 := by decide
      simp only [List.length_append]
      omega
    cases f with
    | zero =>
      simp only [List.length_append] at hf
      omega
    | succ f =>
      show (match matchMarkerAt (markerStr k ++ rest) with
        | some (k2, rest2) =>
          (((acc.reverse, k2) :: (splitGo f rest2 []).1, (splitGo f rest2 []).2) :
            List (Str × ℕ) × Str)
        | none => match markerStr k ++ rest with
          | [] => ([], acc.reverse)
          | c :: t => splitGo f t (c :: acc)) = _
      rw [matchMarkerAt_markerStr]
      dsimp only
      simp only [List.length_append] at hf
      rw [splitGo_fuel f rest.length rest [] (by omega) (le_refl _)]
      simp
  | cons c t ih =>
    intro hcm k rest f acc hf
    obtain ⟨hm, ht⟩ := cm_false_head hcm
    obtain ⟨z, hz⟩ := markerStr_brackets k
    have hnone0 : matchMarkerAt ((c :: t) ++ ('[' :: '[' :: (z ++ rest))) = none :=
      matchMarkerAt_append_brackets (c :: t) (z ++ rest) (by simp) hm
    have heq : (c :: t) ++ markerStr k ++ rest = c :: (t ++ markerStr k ++ rest) := by simp
    have hnone : matchMarkerAt (c :: (t ++ markerStr k ++ rest)) = none := by
      have e : c :: (t ++ markerStr k ++ rest) = (c :: t) ++ ('[' :: '[' :: (z ++ rest)) := by
        rw [hz]
        simp
      rw [e]
      exact hnone0
    rw [heq] at hf ⊢
    cases f with
    | zero => simp at hf
    | succ f =>
      show (match matchMarkerAt (c :: (t ++ markerStr k ++ rest)) with
        | some (k2, rest2) =>
          (((acc.reverse, k2) :: (splitGo f rest2 []).1, (splitGo f rest2 []).2) :
            List (Str × ℕ) × Str)
        | none => match c :: (t ++ markerStr k ++ rest) with
          | [] => ([], acc.reverse)
          | c2 :: t2 => splitGo f t2 (c2 :: acc)) = _
      rw [hnone]
      dsimp only
      simp only [List.length_cons] at hf
      rw [ih ht k rest f (c :: acc) (by omega)]
      simp

lemma dropWhile_append_of_all {p : Char → Bool} (w s : Str) (hw : ∀ c ∈ w, p c = true) :
    (w ++ s).dropWhile p = s.dropWhile p := by
  induction w with
  | nil => rfl
  | cons c t ih =>
    rw [List.cons_append, List.dropWhile_cons_of_pos (hw c (by simp))]
    exact ih (fun c hc => hw c (by simp [hc]))

lemma dropWhile_append_of_ne_nil {p : Char → Bool} (s w : Str) (hs : s.dropWhile p ≠ []) :
    (s ++ w).dropWhile p = s.dropWhile p ++ w := by
  induction s with
  | nil => exact absurd rfl hs
  | cons c t ih =>
    by_cases hc : p c = true
    · rw [List.cons_append, List.dropWhile_cons_of_pos hc, List.dropWhile_cons_of_pos hc]
      rw [List.dropWhile_cons_of_pos hc] at hs
      exact ih hs
    · have hc2 : ¬ p c = true := hc
      rw [List.cons_append, List.dropWhile_cons_of_neg hc2, List.dropWhile_cons_of_neg hc2]
      simp

lemma jsTrim_eq_rdrop (s : Str) :
    jsTrim s = List.rdropWhile isJsWhitespace (s.dropWhile isJsWhitespace) := rfl

lemma rdropWhile_append_ws (x w : Str) (hw : ∀ c ∈ w, isJsWhitespace c = true) :
    List.rdropWhile isJsWhitespace (x ++ w) = List.rdropWhile isJsWhitespace x := by
  rw [List.rdropWhile, List.rdropWhile, List.reverse_append]
  rw [dropWhile_append_of_all w.reverse x.reverse (fun c hc => hw c (by simpa using hc))]

lemma jsTrim_ws_left (w s : Str) (hw : ∀ c ∈ w, isJsWhitespace c = true) :
    jsTrim (w ++ s) = jsTrim s := by
  rw [jsTrim_eq_rdrop, jsTrim_eq_rdrop, dropWhile_append_of_all w s hw]

lemma jsTrim_ws_right (s w : Str) (hw : ∀ c ∈ w, isJsWhitespace c = true) :
    jsTrim (s ++ w) = jsTrim s := by
  by_cases h : s.dropWhile isJsWhitespace = []
  · have hs : ∀ c ∈ s, isJsWhitespace c = true := List.dropWhile_eq_nil_iff.mp h
    rw [jsTrim_eq_rdrop, jsTrim_eq_rdrop, h, dropWhile_append_of_all s w hs]
    have hwnil : w.dropWhile isJsWhitespace = [] := List.dropWhile_eq_nil_iff.mpr hw
    rw [hwnil]
  · rw [jsTrim_eq_rdrop, jsTrim_eq_rdrop, dropWhile_append_of_ne_nil s w h]
    exact rdropWhile_append_ws _ w hw

lemma nl2_ws : ∀ c ∈ nl2, isJsWhitespace c = true := by decide

/-- The cleanup of a recovered segment: with an already-trimmed,
marker-free payload framed by whitespace, the cleanup returns the
payload unchanged. -/
lemma cleanSegment_of_trimmed (lead u : Str) (hcm : containsMarker u = false)
    (htrim : jsTrim u = u) (hlead : ∀ c ∈ lead, isJsWhitespace c = true) :
    cleanSegment (lead ++ u ++ nl2) = u := by
  unfold cleanSegment
  rw [List.append_assoc, jsTrim_ws_left lead _ hlead, jsTrim_ws_right u nl2 nl2_ws, htrim]
  rw [stripMarkers_clean u hcm, htrim]

/-- markerUtils.ts injectMarkers: each paragraph is followed by its
marker, with a blank line between the text and the marker and between
consecutive chunks. -/
def injectChunk (index : ℕ) (para : ParagraphInfo) : Str :=
  jsTrim para.text ++ nl2 ++ markerStr index

/-- JS Array.prototype.join with a separator. -/
def jsJoin (sep : Str) : List Str → Str
  | [] => []
  | [x] => x
  | x :: y :: xs => x ++ sep ++ jsJoin sep (y :: xs)

/-- markerUtils.ts injectMarkers. -/
def injectMarkers (batch : List ParagraphInfo) : Str :=
  jsJoin nl2 (batch.mapIdx injectChunk)

/-- The expected match list of the decoder on injected text: for the
i-th paragraph the raw slice before its marker is the leading padding,
the trimmed text and the blank line before the marker. -/
def expPairs : List ParagraphInfo → ℕ → Str → List (Str × ℕ)
  | [], _, _ => []
  | p :: rest, j, lead => (lead ++ jsTrim p.text ++ nl2, j) :: expPairs rest (j + 1) nl2

/-- The expected trailing slice of the decoder on injected text. -/
def expTail : List ParagraphInfo → Str → Str
  | [], lead => lead
  | _ :: _, _ => []

lemma splitGo_inject : ∀ (l : List ParagraphInfo) (j : ℕ) (lead : Str),
    (lead = [] ∨ lead = nl2) →
    (∀ p ∈ l, containsMarker (jsTrim p.text) = false) →
    ∀ (f : ℕ) (acc : Str),
    (lead ++ jsJoin nl2 (l.mapIdx (fun i p => injectChunk (j + i) p))).length ≤ f →
    splitGo f (lead ++ jsJoin nl2 (l.mapIdx (fun i p => injectChunk (j + i) p))) acc =
      (expPairs l j (acc.reverse ++ lead), expTail l (acc.reverse ++ lead)) := by
  intro l
  induction l with
  | nil =>
    intro j lead hlead hl f acc hf
    have hcm : containsMarker lead = false := by
      rcases hlead with rfl | rfl
      · rfl
      · decide
    simp only [List.mapIdx_nil, jsJoin, List.append_nil] at hf ⊢
    rw [splitGo_clean lead hcm f acc hf]
    rfl
  | cons p rest ih =>
    intro j lead hlead hl f acc hf
    have hlw : ∀ c ∈ lead, isJsWhitespace c = true := by
      rcases hlead with rfl | rfl
      · simp
      · exact nl2_ws
    have hpclean : containsMarker (jsTrim p.text) = false := hl p (by simp)
    have hca : containsMarker (lead ++ jsTrim p.text ++ nl2) = false := by
      rcases hlead with rfl | rfl
      · simpa using cm_pad_right (jsTrim p.text) hpclean
      · rw [List.append_assoc]
        exact cm_pad_left _ (cm_pad_right (jsTrim p.text) hpclean)
    cases rest with
    | nil =>
      have e : lead ++ jsJoin nl2 ((p :: []).mapIdx (fun i q => injectChunk (j + i) q)) =
          (lead ++ jsTrim p.text ++ nl2) ++ markerStr j ++ [] := by
        simp [jsJoin, injectChunk, List.append_assoc]
      rw [e] at hf ⊢
      rw [splitGo_seg_marker (lead ++ jsTrim p.text ++ nl2) hca j [] f acc hf]
      rw [splitGo_nilStr]
      simp [expPairs, expTail, List.append_assoc]
    | cons q rest2 =>
      have e : lead ++ jsJoin nl2 ((p :: q :: rest2).mapIdx (fun i r => injectChunk (j + i) r)) =
          (lead ++ jsTrim p.text ++ nl2) ++ markerStr j ++
            (nl2 ++ jsJoin nl2 ((q :: rest2).mapIdx (fun i r => injectChunk ((j + 1) + i) r))) := by
        simp only [List.mapIdx_cons, jsJoin, injectChunk]
        simp [List.append_assoc, Nat.add_assoc, Nat.add_comm, Nat.add_left_comm]
      rw [e] at hf ⊢
      rw [splitGo_seg_marker (lead ++ jsTrim p.text ++ nl2) hca j _ f acc hf]
      rw [ih (j + 1) nl2 (Or.inr rfl) (fun r hr => hl r (by simp [hr])) _ [] (le_refl _)]
      simp [expPairs, expTail, List.append_assoc]

lemma expPairs_ords : ∀ (l : List ParagraphInfo) (j : ℕ) (lead : Str),
    (expPairs l j lead).map (fun pr => pr.2) = List.range' j l.length := by
  intro l
  induction l with
  | nil => intro j lead; rfl
  | cons p rest ih =>
    intro j lead
    simp only [expPairs, List.map_cons, List.length_cons, List.range'_succ]
    rw [ih (j + 1) nl2]

lemma range'_mem_ge : ∀ (n s i : ℕ), i ∈ List.range' s n → s ≤ i := by
  intro n
  induction n with
  | zero => intro s i h; simp [List.range'] at h
  | succ n ih =>
    intro s i h
    rw [List.range'_succ] at h
    rcases List.mem_cons.mp h with rfl | hm
    · exact le_refl _
    · have := ih (s + 1) i hm
      omega

lemma range'_mem_of_lt : ∀ (n s i : ℕ), s ≤ i → i < s + n → i ∈ List.range' s n := by
  intro n
  induction n with
  | zero => intro s i h1 h2; omega
  | succ n ih =>
    intro s i h1 h2
    rw [List.range'_succ]
    rcases Nat.eq_or_lt_of_le h1 with rfl | hlt
    · exact List.mem_cons_self _ _
    · exact List.mem_cons_of_mem _ (ih (s + 1) i (by omega) (by omega))

lemma range'_getLastQ : ∀ (n s : ℕ), (List.range' s (n + 1)).getLast? = some (s + n) := by
  intro n
  induction n with
  | zero => intro s; rfl
  | succ m ih =>
    intro s
    rw [List.range'_succ, List.range'_succ, List.getLast?_cons_cons, ← List.range'_succ]
    rw [ih (s + 1)]
    congr 1
    omega

lemma procPairs_expPairs_found_dup : ∀ (l : List ParagraphInfo) (j : ℕ) (lead : Str)
    (st : ExtractState), (∀ i ∈ st.found, i < j) →
    (procPairs (expPairs l j lead) st).found = st.found ++ List.range' j l.length ∧
    (procPairs (expPairs l j lead) st).dup = st.dup := by
  intro l
  induction l with
  | nil =>
    intro j lead st _
    simp [expPairs, procPairs, List.range']
  | cons p rest ih =>
    intro j lead st hfresh
    have hj : j ∉ st.found := fun hj => absurd (hfresh j hj) (by omega)
    have hstep : procStep st (lead ++ jsTrim p.text ++ nl2, j) =
        { paragraphs := awrite st.paragraphs j (cleanSegment (lead ++ jsTrim p.text ++ nl2)),
          dup := st.dup, found := st.found ++ [j] } := by
      unfold procStep insertFound
      rw [if_neg hj, if_neg hj]
    show (procPairs (expPairs rest (j + 1) nl2) (procStep st _)).found = _ ∧
      (procPairs (expPairs rest (j + 1) nl2) (procStep st _)).dup = _
    rw [hstep]
    have hfresh2 : ∀ i ∈ st.found ++ [j], i < j + 1 := by
      intro i hi
      rcases List.mem_append.mp hi with hm | hm
      · have := hfresh i hm
        omega
      · rw [List.mem_singleton] at hm
        omega
    obtain ⟨hfound, hdup⟩ := ih (j + 1) nl2
      { paragraphs := awrite st.paragraphs j (cleanSegment (lead ++ jsTrim p.text ++ nl2)),
        dup := st.dup, found := st.found ++ [j] } hfresh2
    refine ⟨?_, hdup⟩
    rw [hfound]
    simp only [List.length_cons, List.range'_succ]
    simp

lemma procPairs_expPairs_get : ∀ (l : List ParagraphInfo) (j : ℕ) (lead : Str)
    (st : ExtractState) (i : ℕ) (hi : i < l.length),
    aget (procPairs (expPairs l j lead) st).paragraphs (j + i) =
      some (cleanSegment ((if i = 0 then lead else nl2) ++ jsTrim ((l.get ⟨i, hi⟩).text) ++ nl2)) := by
  intro l
  induction l with
  | nil => intro j lead st i hi; simp at hi
  | cons p rest ih =>
    intro j lead st i hi
    cases i with
    | zero =>
      simp only [Nat.add_zero]
      show aget (procPairs (expPairs rest (j + 1) nl2)
        (procStep st (lead ++ jsTrim p.text ++ nl2, j))).paragraphs j = _
      have hfilter : (expPairs rest (j + 1) nl2).filter (fun pr => pr.2 == j) = [] := by
        rw [List.filter_eq_nil_iff]
        intro pr hpr
        have hmem : pr.2 ∈ (expPairs rest (j + 1) nl2).map (fun pr => pr.2) :=
          List.mem_map_of_mem _ hpr
        rw [expPairs_ords] at hmem
        have := range'_mem_ge _ _ _ hmem
        simp only [beq_iff_eq]
        omega
      rw [procPairs_get_untouched _ _ hfilter]
      show aget (awrite st.paragraphs j (cleanSegment (lead ++ jsTrim p.text ++ nl2))) j = _
      rw [aget_awrite_self]
      simp
    | succ i2 =>
      show aget (procPairs (expPairs rest (j + 1) nl2)
        (procStep st (lead ++ jsTrim p.text ++ nl2, j))).paragraphs (j + (i2 + 1)) = _
      rw [show j + (i2 + 1) = (j + 1) + i2 by omega]
      have hi2 : i2 < rest.length := by
        simp only [List.length_cons] at hi
        omega
      rw [ih (j + 1) nl2 (procStep st (lead ++ jsTrim p.text ++ nl2, j)) i2 hi2]
      simp

/-- C3: the marker round-trip does not return the original texts verbatim:
injectMarkers trims each paragraph before encoding, so a paragraph whose
text carries surrounding whitespace is recovered trimmed.  Batch of two
paragraphs, the first being a space-padded letter. -/
theorem marker_roundtrip_counterexample :
    (let rtBatch : List ParagraphInfo :=
      [⟨" a ".toList, 0, 0, 1⟩, ⟨"b".toList, 0, 1, 1⟩]
     (extractTranslatedParagraphs (injectMarkers rtBatch) 2).missingMarkers = [] ∧
     (extractTranslatedParagraphs (injectMarkers rtBatch) 2).duplicateMarkers = [] ∧
     aget (extractTranslatedParagraphs (injectMarkers rtBatch) 2).paragraphs 0 =
       some ("a".toList) ∧
     some ("a".toList) ≠ some (" a ".toList)) := by
  refine ⟨by decide, by decide, by decide, by decide⟩

/-- C3 (amended): for a batch of at least two paragraphs whose texts are
marker-free and already trimmed, decoding the exact output of
injectMarkers with expectedCount = n yields no missing markers, no
duplicate markers, and recovers every original paragraph text. -/
theorem marker_roundtrip_trimmed (batch : List ParagraphInfo)
    (hn : 2 ≤ batch.length)
    (hclean : ∀ p ∈ batch, containsMarker p.text = false)
    (htrim : ∀ p ∈ batch, jsTrim p.text = p.text) :
    (extractTranslatedParagraphs (injectMarkers batch) batch.length).missingMarkers = [] ∧
    (extractTranslatedParagraphs (injectMarkers batch) batch.length).duplicateMarkers = [] ∧
    ∀ i, ∀ hi : i < batch.length,
      aget (extractTranslatedParagraphs (injectMarkers batch) batch.length).paragraphs i =
        some ((batch.get ⟨i, hi⟩).text) := by
  obtain ⟨m, hm⟩ : ∃ m, batch.length = m + 2 := ⟨batch.length - 2, by omega⟩
  have hcleanT : ∀ p ∈ batch, containsMarker (jsTrim p.text) = false := by
    intro p hp
    rw [htrim p hp]
    exact hclean p hp
  have hinj : injectMarkers batch =
      [] ++ jsJoin nl2 (batch.mapIdx (fun i p => injectChunk (0 + i) p)) := by
    simp only [Nat.zero_add, List.nil_append]
    rfl
  have hsplit : splitByMarkers (injectMarkers batch) =
      (expPairs batch 0 [], expTail batch []) := by
    unfold splitByMarkers
    rw [hinj]
    rw [splitGo_inject batch 0 [] (Or.inl rfl) hcleanT _ [] (le_refl _)]
    rfl
  obtain ⟨hfound, hdup⟩ := procPairs_expPairs_found_dup batch 0 [] ⟨[], [], []⟩
    (by intro i hi; exact absurd hi (List.not_mem_nil i))
  have hords := expPairs_ords batch 0 []
  have hlast2 : (expPairs batch 0 []).getLast?.map (fun pr => pr.2) = some (m + 1) := by
    rw [← List.getLast?_map, hords, hm]
    rw [range'_getLastQ]
    congr 1
    omega
  obtain ⟨lastPr, hlastPr, hlastOrd⟩ :
      ∃ pr, (expPairs batch 0 []).getLast? = some pr ∧ pr.2 = m + 1 := by
    cases hg : (expPairs batch 0 []).getLast? with
    | none => rw [hg] at hlast2; cases hlast2
    | some pr =>
      rw [hg] at hlast2
      have : pr.2 = m + 1 := by
        have h2 : some pr.2 = some (m + 1) := hlast2
        exact Option.some_injective _ h2
      exact ⟨pr, rfl, this⟩
  have hts : extractTailStep batch.length (expPairs batch 0 []) (expTail batch [])
      (procPairs (expPairs batch 0 []) ⟨[], [], []⟩) =
      procPairs (expPairs batch 0 []) ⟨[], [], []⟩ := by
    unfold extractTailStep
    rw [hlastPr]
    dsimp only
    have hnlt : ¬ (lastPr.2 + 1 < batch.length) := by
      rw [hlastOrd, hm]
      omega
    rw [if_neg hnlt]
  unfold extractTranslatedParagraphs
  rw [hsplit]
  dsimp only
  rw [hts]
  unfold extractFinish
  dsimp only
  refine ⟨?_, ?_, ?_⟩
  · rw [List.filter_eq_nil_iff]
    intro i hi
    rw [List.mem_range] at hi
    have him : i ∈ (procPairs (expPairs batch 0 []) ⟨[], [], []⟩).found := by
      rw [hfound]
      simp only [List.nil_append]
      exact range'_mem_of_lt _ _ _ (Nat.zero_le i) (by omega)
    simp [him]
  · exact hdup
  · intro i hi
    have hget := procPairs_expPairs_get batch 0 [] ⟨[], [], []⟩ i hi
    simp only [Nat.zero_add] at hget
    rw [hget]
    have hpmem : batch.get ⟨i, hi⟩ ∈ batch := List.get_mem batch i hi
    have hu : jsTrim ((batch.get ⟨i, hi⟩).text) = (batch.get ⟨i, hi⟩).text := htrim _ hpmem
    have hlw : ∀ c ∈ (if i = 0 then ([] : Str) else nl2), isJsWhitespace c = true := by
      split
      · intro c hc
        exact absurd hc (List.not_mem_nil c)
      · exact nl2_ws
    rw [hu]
    rw [cleanSegment_of_trimmed _ _ (hclean _ hpmem) hu hlw]

/-- Closed instance of the amended round-trip on a concrete two-paragraph
batch of trimmed, marker-free texts. -/
theorem marker_roundtrip_trimmed_witness :
    (let wBatch : List ParagraphInfo := [⟨"a".toList, 0, 0, 1⟩, ⟨"b".toList, 0, 1, 1⟩]
     (extractTranslatedParagraphs (injectMarkers wBatch) wBatch.length).missingMarkers = [] ∧
     (extractTranslatedParagraphs (injectMarkers wBatch) wBatch.length).duplicateMarkers = [] ∧
     aget (extractTranslatedParagraphs (injectMarkers wBatch) wBatch.length).paragraphs 0 =
       some ("a".toList)) := by
  obtain ⟨h1, h2, h3⟩ := marker_roundtrip_trimmed
    [⟨"a".toList, 0, 0, 1⟩, ⟨"b".toList, 0, 1, 1⟩]
    (by decide) (by decide) (by decide)
  exact ⟨h1, h2, h3 0 (by decide)⟩

/-! The persisted translation record and the batch-resume orchestration
(translationHandlers.ts, translationHelpers.ts over utils/indexedDB.ts).
indexedDB.setTranslation executes store.put, which replaces the whole
stored record for the id. -/

/-- markdownProcessor.ts flattenMarkdownItems: one ParagraphInfo per
non-empty paragraph, carrying its item and paragraph indices and its
token estimate. -/
def flattenMarkdownItems (items : List MetaSoMarkdownItem) : List ParagraphInfo :=
  (items.enum.map (fun ip =>
    (ip.2.markdown.enum.filter (fun pp => !(isEmptyParagraph pp.2))).map
      (fun pp => ⟨pp.2, ip.1, pp.1, (estimateTokens pp.2 : ℤ)⟩))).join

/-- TranslationBatchProgress from types/index.ts. -/
structure TranslationBatchProgress where
  completedBatchCount : ℕ
  totalBatchCount : ℕ
  translatedParagraphs : StrMap
  totalTokens : ℤ
  deriving DecidableEq

/-- TranslationEntry.status values. -/
inductive TransStatus where
  | pending
  | completed
  | failed
  deriving DecidableEq

/-- The persisted translation record for one id, restricted to the
fields the progress claims speak about: status, meta.tokenCount and the
optional meta.batchProgress.  The payload fields (translatedContent,
model, provider, timestamps, error text) are omitted: every write sets
them independently of the previously stored record. -/
structure TransRecord where
  status : TransStatus
  tokenCount : ℤ
  batchProgress : Option TranslationBatchProgress
  deriving DecidableEq

/-- The translations object store at one id; none = no record yet. -/
abbrev TransStore := Option TransRecord

/-- The stored meta.batchProgress of a record, if any. -/
def progressOf (s : TransStore) : Option TranslationBatchProgress :=
  match s with
  | some r => r.batchProgress
  | none => none

/-- translationHelpers.ts createPendingTranslation: setTranslation with
a fresh pending record whose meta carries tokenCount 0 and no
batchProgress field; put replaces the previous record wholesale. -/
def createPendingTranslation (_ : TransStore) : TransStore :=
  some { status := .pending, tokenCount := 0, batchProgress := none }

/-- translationHelpers.ts updatePendingTranslation: same shape with the
given tokenCount, again without a batchProgress field. -/
def updatePendingTranslation (tokenCount : ℤ) (_ : TransStore) : TransStore :=
  some { status := .pending, tokenCount := tokenCount, batchProgress := none }

/-- translationHelpers.ts saveFailedTranslation: the function is
declared with three parameters (id, config, error), so the batchProgress
value handleRetryTranslation passes as a fourth argument is silently
dropped; the failed record written carries tokenCount 0 and no
batchProgress. -/
def saveFailedTranslation (_ : TransStore) : TransStore :=
  some { status := .failed, tokenCount := 0, batchProgress := none }

/-- Modelled from the spec: saveBatchProgress is imported by
translationHandlers.ts from translationHelpers.ts but its definition is
absent from the available sources.  Spec section 4.6 has the Batch
Progress State written to durable storage after each batch attempt, so
the call is modelled as persisting the given progress into the stored
record's meta.batchProgress, keeping the pending status and the
record's token count. -/
def saveBatchProgress (p : TranslationBatchProgress) (s : TransStore) : TransStore :=
  some { status := .pending,
         tokenCount := match s with | some r => r.tokenCount | none => 0,
         batchProgress := some p }

/-- The per-batch result handling of performTranslation: a singleton
batch stores the trimmed content under its key with a blank line
appended; a multi-paragraph batch decodes the markers, applies the
fallback strategy and stores, for each paragraph, the recovered slot
(or the original text when the slot is missing or empty), trimmed,
with a blank line appended. -/
def storeBatchResult (batch : List ParagraphInfo) (content : Str) (m : StrMap) : StrMap :=
  match batch with
  | [p] => mset m (keyOf p.itemIndex p.paragraphIndex) (jsTrim content ++ nl2)
  | _ =>
    let fb := applyFallbackStrategy
      (extractTranslatedParagraphs content batch.length) batch content
    batch.enum.foldl (fun acc ip =>
      mset acc (keyOf ip.2.itemIndex ip.2.paragraphIndex)
        (jsTrim (jsOr (aget fb.paragraphs ip.1) ip.2.text) ++ nl2)) m

/-- The batch loop of performTranslation, started at resumeFromBatch,
acting on the persisted store.  The oracle gives each batch index the
outcome of its translationService.translate call: some (content, tok)
on success, none on failure.  The rate-limiter interaction has no store
effect and is omitted here.  On failure, saveProgressAndThrow persists
the progress accumulated so far with completedBatchCount = batchIndex
and the run aborts; on success the merged map and token total are
persisted with completedBatchCount = batchIndex + 1 (saveBatchProgress)
and the pending record is refreshed (updatePendingTranslation).
Returns the final token total, the final store, the list of stores
persisted along the way (oldest first) and whether the loop finished. -/
def runBatches (oracle : ℕ → Option (Str × ℤ)) (totalBatchCount : ℕ) :
    List (List ParagraphInfo) → ℕ → StrMap → ℤ → TransStore →
    ℤ × TransStore × List TransStore × Bool
  | [], _, _, totalTokens, s => (totalTokens, s, [], true)
  | batch :: rest, batchIndex, m, totalTokens, s =>
    match oracle batchIndex with
    | none =>
      let s1 := saveBatchProgress ⟨batchIndex, totalBatchCount, m, totalTokens⟩ s
      (totalTokens, s1, [s1], false)
    | some ct =>
      let m1 := storeBatchResult batch ct.1 m
      let tt1 := totalTokens + ct.2
      let s1 := saveBatchProgress ⟨batchIndex + 1, totalBatchCount, m1, tt1⟩ s
      let s2 := updatePendingTranslation tt1 s1
      match runBatches oracle totalBatchCount rest (batchIndex + 1) m1 tt1 s2 with
      | (ttf, sf, tr, ok) => (ttf, sf, s1 :: s2 :: tr, ok)

/-- translationHandlers.ts performTranslation, as its effect on the
persisted record: throw when there are no markdown items; otherwise
read the stored record's batchProgress, take the resume point from its
completedBatchCount (0 when the field is absent), rehydrate the
paragraph map and token total from it, run the remaining batches, and
on completion of the loop write the completed record, whose meta has a
tokenCount but no batchProgress.  Returns the final store, the stores
persisted along the way and whether the call returned (false = it
threw). -/
def performTranslation (items : List MetaSoMarkdownItem)
    (oracle : ℕ → Option (Str × ℤ)) (s : TransStore) :
    TransStore × List TransStore × Bool :=
  if items.length = 0 then (s, [], false)
  else
    let bp := progressOf s
    let resumeFromBatch := match bp with | some p => p.completedBatchCount | none => 0
    let batches := batchParagraphs (flattenMarkdownItems items) MAX_CONTEXT_TOKENS
    let m0 := match bp with | some p => p.translatedParagraphs | none => []
    let tt0 := match bp with | some p => p.totalTokens | none => 0
    match runBatches oracle batches.length (batches.drop resumeFromBatch)
        resumeFromBatch m0 tt0 s with
    | (ttf, _, tr, true) =>
      let sc : TransStore := some ⟨TransStatus.completed, ttf, none⟩
      (sc, tr ++ [sc], true)
    | (_, sf, tr, false) => (sf, tr, false)

/-- translationHandlers.ts handleRetryTranslation, for a stored record
that is not completed: the existing record is read first (used only for
logging and for the fourth argument that saveFailedTranslation drops),
then createPendingTranslation overwrites the record, then
performTranslation runs; if it throws, saveFailedTranslation writes the
failed record.  Returns the final store and the persisted trace. -/
def handleRetryTranslation (items : List MetaSoMarkdownItem)
    (oracle : ℕ → Option (Str × ℤ)) (s : TransStore) :
    TransStore × List TransStore :=
  let s1 := createPendingTranslation s
  match performTranslation items oracle s1 with
  | (sf, tr, true) => (sf, s1 :: tr)
  | (sf, tr, false) =>
    let s2 := saveFailedTranslation sf
    (s2, s1 :: (tr ++ [s2]))

/-- Stored progress of the C2 run before the retry: two of two batches
done, both paragraph keys set. -/
def c2Bp0 : TranslationBatchProgress :=
  ⟨2, 2, [(keyOf 0 0, "x".toList ++ nl2), (keyOf 0 1, "y".toList ++ nl2)], 100⟩

/-- Store before the retry: a failed record carrying c2Bp0. -/
def c2Store0 : TransStore := some ⟨TransStatus.failed, 0, some c2Bp0⟩

/-- Document of the C2 run: one item with two short paragraphs, giving
one batch. -/
def c2Items : List MetaSoMarkdownItem := [⟨[], ["a".toList, "b".toList], 0, true⟩]

/-- C2: monotonic progress fails on retry.  The store starts with
persisted progress completedBatchCount = 2 and the key 0-0 set.
handleRetryTranslation first overwrites the record via
createPendingTranslation, whose record has no batchProgress, so
performTranslation reads resumeFromBatch = 0 and an empty map; when the
first batch fails, the persisted trace holds a record whose progress
has completedBatchCount = 0 and no keys, and the final failed record
has no batchProgress at all — the count decreased from 2 to 0 and the
previously set keys are gone. -/
theorem retry_loses_progress :
    progressOf c2Store0 = some c2Bp0 ∧
    c2Bp0.completedBatchCount = 2 ∧
    mget c2Bp0.translatedParagraphs (keyOf 0 0) = some ("x".toList ++ nl2) ∧
    (handleRetryTranslation c2Items (fun _ => none) c2Store0).2 =
      [some ⟨TransStatus.pending, 0, none⟩,
       some ⟨TransStatus.pending, 0, some ⟨0, 1, [], 0⟩⟩,
       some ⟨TransStatus.failed, 0, none⟩] ∧
    (handleRetryTranslation c2Items (fun _ => none) c2Store0).1 =
      some ⟨TransStatus.failed, 0, none⟩ ∧
    mget ([] : StrMap) (keyOf 0 0) = none := by
  refine ⟨by decide, by decide, by decide, by decide, by decide, by decide⟩

end MetaSo
